import Mathlib

set_option maxHeartbeats 1000000
set_option maxRecDepth 4000

/-!  Verification development for the dynamic-time-warping core
(`DynamicWarping.cxx` / `DynamicWarping.h`): the `DynamicWarping` engine and
the companion `RecursiveExponentialFilter`.  The C++ `float`/`double`
arithmetic is embedded as exact rational arithmetic (`ℚ`); `vector<float>`
becomes `List ℚ`; a `vector<vector<float>>` table becomes `List (List ℚ)`.
In-place mutation is modelled by explicit state passing with `List.set`.  -/

/-- Reads entry `(i, l)` of a table stored as a list of rows.  Out-of-range
reads give `0`, matching the zero-initialised storage that `vector::resize`
produces (reads the C++ source performs out of bounds are undefined there;
every claim below is settled on executions that stay in bounds). -/
def get2 (m : List (List ℚ)) (i l : ℕ) : ℚ := (m.getD i []).getD l 0

/-- `DynamicWarping::error`: `pow(abs(f-g),_epow)`.  The exponent `_epow` is a
`float` in the source (default `2`); it is modelled as a natural exponent,
which covers every configuration the claims quantify over. -/
def errF (p : ℕ) (x y : ℚ) : ℚ := |x - y| ^ p

/-- `DynamicWarping::ErrorExtrapolation` (`DTW_NEAREST`/`DTW_AVERAGE`/
`DTW_REFLECT`). -/
inductive ErrorExtrapolation
  | nearest
  | average
  | reflect
deriving DecidableEq

/-- Lower lag-index bound of the first pass of `computeErrors`:
`illo = max(0,-lmin-i1)`. -/
def illo (lmin : ℤ) (i : ℕ) : ℤ := max 0 (-lmin - i)

/-- Upper lag-index bound of the first pass of `computeErrors`:
`ilhi = min(nl,n1-lmin-i1)`. -/
def ilhi (lmin : ℤ) (nl n1 : ℕ) (i : ℕ) : ℤ := min (nl : ℤ) ((n1 : ℤ) - lmin - i)

/-- Cell `(i,il)` is computed by the first pass of `computeErrors`,
i.e. `illo ≤ il < ilhi` (equivalently the index `j1 = i1+il+lmin` into `g`
is in `[0,n1)`, see the indexing notes in the source). -/
def cellInRange (lmin : ℤ) (nl n1 : ℕ) (i il : ℕ) : Prop :=
  illo lmin i ≤ (il : ℤ) ∧ (il : ℤ) < ilhi lmin nl n1 i

instance (lmin : ℤ) (nl n1 i il : ℕ) : Decidable (cellInRange lmin nl n1 i il) := by
  unfold cellInRange; infer_instance

/-- First pass of `DynamicWarping::computeErrors`: alignment errors
`e[i1][il] = error(f[i1],g[j1])` where `j1 = i1+il+lmin` is in bounds; every
other cell keeps the `0.0f` left by allocation (`resize`). -/
def pass1 (p : ℕ) (lmin : ℤ) (nl : ℕ) (f g : List ℚ) : List (List ℚ) :=
  (List.range f.length).map (fun i =>
    (List.range nl).map (fun il =>
      if cellInRange lmin nl f.length i il then
        errF p (f.getD i 0) (g.getD ((i : ℤ) + il + lmin).toNat 0)
      else 0))

/-- The lag indices the first-pass inner loop visits for sample `i`
(`il = illo, ..., ilhi-1`). -/
def validILs (lmin : ℤ) (nl n1 : ℕ) (i : ℕ) : List ℕ :=
  List.range' (illo lmin i).toNat (ilhi lmin nl n1 i - illo lmin i).toNat

/-- Running maximum `emax` over all first-pass errors, initialised `0.0f`
and updated by `if (ei>emax) emax = ei`. -/
def emaxOf (p : ℕ) (lmin : ℤ) (nl : ℕ) (f g : List ℚ) : ℚ :=
  (List.range f.length).foldl (fun m i =>
    (validILs lmin nl f.length i).foldl (fun m2 (il : ℕ) =>
      let ei := errF p (f.getD i 0) (g.getD ((i : ℤ) + il + lmin).toNat 0)
      if m2 < ei then ei else m2) m) 0

/-- The sample indices for which lag index `il` is in range: the source's own
indexing notes give `max(0,-lmin-il) <= i1 < min(n1,n1-lmin-il)`; these are
the samples whose errors the `average` policy accumulates into
`eavg[il]`/`navg[il]` during the first pass. -/
def validIs (lmin : ℤ) (n1 : ℕ) (il : ℕ) : List ℕ :=
  List.range' (max 0 (-lmin - il)).toNat
    (min (n1 : ℤ) ((n1 : ℤ) - lmin - il) - max 0 (-lmin - il)).toNat

/-- `navg[il]`: number of first-pass errors accumulated for lag index `il`. -/
def navgOf (lmin : ℤ) (n1 : ℕ) (il : ℕ) : ℕ := (validIs lmin n1 il).length

/-- The running sum accumulated into `eavg[il]` during the first pass. -/
def eavgSum (p : ℕ) (lmin : ℤ) (f g : List ℚ) (il : ℕ) : ℚ :=
  ((validIs lmin f.length il).map (fun i =>
    errF p (f.getD i 0) (g.getD ((i : ℤ) + il + lmin).toNat 0))).sum

/-- `eavg[il]` after the division step `eavg[il] /= navg[il]` (performed when
`navg[il] > 0`; it is only read in that case). -/
def eavgOf (p : ℕ) (lmin : ℤ) (f g : List ℚ) (il : ℕ) : ℚ :=
  eavgSum p lmin f g il / (navgOf lmin f.length il : ℚ)

/-- Donor sample index for `Nearest`/`Reflect` extrapolation:
`k1 = (il<illo) ? -lmin-il : n1m-lmin-il`, then `k1 += k1-i1` for `Reflect`. -/
def donorK (lmin : ℤ) (n1 : ℕ) (reflect : Bool) (i il : ℕ) : ℤ :=
  let k1 : ℤ := if (il : ℤ) < illo lmin i then -lmin - il else ((n1 : ℤ) - 1) - lmin - il
  if reflect then k1 + (k1 - i) else k1

/-- One row of the second (extrapolation) pass of `computeErrors`: cells with
`il < illo || il >= ilhi` are filled according to the policy, reading donors
from the evolving table `tbl`; in-range cells are left unchanged. -/
def fillRow (extrap : ErrorExtrapolation) (p : ℕ) (lmin : ℤ) (nl : ℕ)
    (f g : List ℚ) (tbl : List (List ℚ)) (i : ℕ) : List ℚ :=
  (List.range nl).map (fun il =>
    if cellInRange lmin nl f.length i il then get2 tbl i il
    else
      match extrap with
      | ErrorExtrapolation.average =>
          if 0 < navgOf lmin f.length il then eavgOf p lmin f g il
          else emaxOf p lmin nl f g
      | ErrorExtrapolation.nearest =>
          let k := donorK lmin f.length false i il
          if 0 ≤ k ∧ k < (f.length : ℤ) then get2 tbl k.toNat il
          else emaxOf p lmin nl f g
      | ErrorExtrapolation.reflect =>
          let k := donorK lmin f.length true i il
          if 0 ≤ k ∧ k < (f.length : ℤ) then get2 tbl k.toNat il
          else emaxOf p lmin nl f g)

/-- `DynamicWarping::computeErrors`: first pass computes in-bounds errors,
the second pass extrapolates the remaining cells row by row in increasing
`i1`, in place. -/
def computeErrors (extrap : ErrorExtrapolation) (p : ℕ) (lmin : ℤ) (nl : ℕ)
    (f g : List ℚ) : List (List ℚ) :=
  (List.range f.length).foldl
    (fun tbl i => tbl.set i (fillRow extrap p lmin nl f g tbl i))
    (pass1 p lmin nl f g)

/-- The `(emin, emax)` fold of `DynamicWarping::normalizeErrors`, started
from `e[0][0]`. -/
def eMinMax (e : List (List ℚ)) : ℚ × ℚ :=
  (List.range e.length).foldl (fun pr i =>
    (List.range (e.headD []).length).foldl (fun pr2 il =>
      let v := get2 e i il
      (if v < pr2.1 then v else pr2.1, if pr2.2 < v then v else pr2.2)) pr)
    (get2 e 0 0, get2 e 0 0)

/-- `DynamicWarping::shiftAndScale`: `e[i1][il] = (e[i1][il]-eshift)*escale`
with `eshift = emin` and `escale = (emax>emin) ? 1/(emax-emin) : 1`. -/
def shiftAndScale (emin emax : ℚ) (e : List (List ℚ)) : List (List ℚ) :=
  e.map (fun row => row.map (fun v =>
    (v - emin) * (if emin < emax then 1 / (emax - emin) else 1)))

/-- `DynamicWarping::normalizeErrors`. -/
def normalizeErrors (e : List (List ℚ)) : List (List ℚ) :=
  shiftAndScale (eMinMax e).1 (eMinMax e).2 e

/-- The inner loop `for (kb=ji; kb!=jb; kb-=is) { dm += e[kb][ilm1]; ... }`
of `accumulate`: adds the intervening errors at one lag along a stride. -/
def strideSum (e : List (List ℚ)) (il2 : ℕ) (ks : List ℕ) (init : ℚ) : ℚ :=
  ks.foldl (fun acc kb => acc + get2 e kb il2) init

/-- `DynamicWarping::accumulate` for `dir = +1` (`fwd = true`) or `dir = -1`.
The output table starts as the zero-initialised allocation the callers
provide; sample `ib`'s row is zeroed and then every sample is processed in
direction `dir`, in place (at `ii = ib` the reads `d[ji]`, `d[jb]` alias the
row being written, exactly as in the source). -/
def accumulate (fwd : Bool) (b : ℕ) (e : List (List ℚ)) : List (List ℚ) :=
  let nl := (e.headD []).length
  let ni := e.length
  let nim1 := ni - 1
  let ib := if fwd then 0 else nim1
  let iis := if fwd then List.range ni else (List.range ni).reverse
  let d0 := (List.replicate ni (List.replicate nl (0 : ℚ))).set ib
    (List.replicate nl (0 : ℚ))
  iis.foldl (fun d ii =>
    let ji := if fwd then min nim1 (ii - 1) else min nim1 (ii + 1)
    let jb := if fwd then min nim1 (ii - b) else min nim1 (ii + b)
    let ks := if fwd then (List.range' (jb + 1) (ji - jb)).reverse
      else List.range' ji (jb - ji)
    (List.range nl).foldl (fun d2 il =>
      let ilm1 := il - 1
      let ilp1 := if il + 1 = nl then nl - 1 else il + 1
      let dm := strideSum e ilm1 ks (get2 d2 jb ilm1)
      let di := get2 d2 ji il
      let dp := strideSum e ilp1 ks (get2 d2 jb ilp1)
      d2.set ii ((d2.getD ii []).set il (min (min dm di) dp + get2 e ii il))) d)
    d0

/-- `DynamicWarping::accumulateForward`. -/
def accumulateForward (b : ℕ) (e : List (List ℚ)) : List (List ℚ) :=
  accumulate true b e

/-- `DynamicWarping::smoothErrors1`: `es = ef + er - e` cellwise, where `ef`
and `er` are forward and reverse accumulations (no normalisation). -/
def smoothErrors1 (b : ℕ) (e : List (List ℚ)) : List (List ℚ) :=
  let ef := accumulate true b e
  let er := accumulate false b e
  (List.range e.length).map (fun i1 =>
    (List.range (e.headD []).length).map (fun il =>
      get2 ef i1 il + get2 er i1 il - get2 e i1 il))

/-- `DynamicWarping::smoothErrors`: smooth then normalise. -/
def smoothErrors (b : ℕ) (e : List (List ℚ)) : List (List ℚ) :=
  normalizeErrors (smoothErrors1 b e)

/-- The `for (is=0; is<esmooth; ++is) smoothErrors(e,e)` loop of
`findShifts`. -/
def smoothPasses (b : ℕ) : ℕ → List (List ℚ) → List (List ℚ)
  | 0, e => e
  | n + 1, e => smoothPasses b n (smoothErrors b e)

/-- The running-minimum scan `if (d[ii][jl]<dl) { dl = d[ii][jl]; il = jl; }`
of `backtrack`, over a list of candidate lag indices, carrying `(il, dl)`. -/
def argminFold (row : List ℚ) (st : ℕ × ℚ) (L : List ℕ) : ℕ × ℚ :=
  L.foldl (fun st2 jl => if row.getD jl 0 < st2.2 then (jl, row.getD jl 0) else st2) st

/-- The scan selecting the starting lag of `backtrack`: the initial
candidate is `il = max(0,min(nlm1,-lmin))` with `dl = d[ii][il]`, then
`for (jl=1; jl<nl; ++jl) if (d[ii][jl]<dl) { dl = ...; il = jl; }`.
Note the scan starts at `jl = 1`: lag index `0` is examined only when it is
the initial candidate. -/
def startLag (lmin : ℤ) (nl : ℕ) (row : List ℚ) : ℕ :=
  let il0 : ℕ := (max 0 (min ((nl : ℤ) - 1) (-lmin))).toNat
  (argminFold row (il0, row.getD il0 0) (List.range' 1 (nl - 1))).1

/-- The interpolation ramp of `backtrack`: after a lag transition the shift
change is spread over the stride, each written sample getting the previous
value plus `du` (`u[ii] = u[ii-is]+du`, repeated).  The output list collects
shifts from high to low sample index, so the ramp conses `k` values. -/
def rampCons (du : ℚ) : ℕ → List ℚ → List ℚ
  | 0, acc => acc
  | k + 1, acc => rampCons du k ((acc.headD 0 + du) :: acc)

/-- The three-way `(dm, di, dp)` comparison of one iteration of the
`while (ii!=ie)` loop of `DynamicWarping::backtrack`, for `dir = -1`
(`is = -1`): recompute the clamped predecessor indices `ji`, `jb`, the lag
neighbours `ilm1`, `ilp1`, the stride sums, and return the lag index the
loop continues with (`il` when `dl == di`, else `ilm1` or `ilp1`).  Natural
subtraction performs the `max(0,min(nim1,...))` clamping. -/
def btChoice (b : ℕ) (d e : List (List ℚ)) (nl nim1 ii il : ℕ) : ℕ :=
  let ji := min nim1 (ii - 1)
  let jb := min nim1 (ii - b)
  let ilm1 := il - 1
  let ilp1 := if il + 1 = nl then nl - 1 else il + 1
  let ks := List.range' (jb + 1) (ji - jb)
  let dm := strideSum e ilm1 ks (get2 d jb ilm1)
  let di := get2 d ji il
  let dp := strideSum e ilp1 ks (get2 d jb ilp1)
  let dl := min (min dm di) dp
  if dl ≠ di then (if dl = dm then ilm1 else ilp1) else il

/-- The `while (ii!=ie)` loop of `DynamicWarping::backtrack` specialised to
`dir = -1` (`is = -1`, `ib = nim1`, `ie = 0`), which is the only direction
the engine uses (`backtrackReverse`).  `acc` holds the shifts already
written, `acc.headD 0 = u[ii]`.  After a lag transition
(`il==ilm1 || il==ilp1`) the newly written `u[ii] = il+lmin` is immediately
overwritten by `u[ii-is]+du` and the ramp continues over the stride, so the
branch conses `1 + (ji-jb)` ramp values.  The `fuel` argument bounds the
iteration count (each iteration strictly decreases `ii` whenever `b ≥ 1`,
so `fuel = ni` suffices to reach `ii = 0`). -/
def backtrackLoop (b : ℕ) (lmin : ℤ) (d e : List (List ℚ)) (nl nim1 : ℕ) :
    ℕ → ℕ → ℕ → List ℚ → List ℚ
  | 0, _, _, acc => acc
  | fuel + 1, ii, il, acc =>
    if ii = 0 then acc
    else
      let ji := min nim1 (ii - 1)
      let jb := min nim1 (ii - b)
      let ilm1 := il - 1
      let ilp1 := if il + 1 = nl then nl - 1 else il + 1
      let il2 := btChoice b d e nl nim1 ii il
      if il2 = ilm1 ∨ il2 = ilp1 then
        let du := (((il2 : ℤ) + lmin : ℤ) - acc.headD 0) * (1 / (b : ℚ))
        backtrackLoop b lmin d e nl nim1 fuel jb il2
          (rampCons du (1 + (ji - jb)) acc)
      else
        backtrackLoop b lmin d e nl nim1 fuel (ii - 1) il2
          ((((il2 : ℤ) + lmin : ℤ) : ℚ) :: acc)

/-- `DynamicWarping::backtrackReverse`, i.e. `backtrack(-1,b,lmin,d,e,u)`:
select the starting lag at the edge sample `nim1`, set `u[nim1] = il+lmin`,
then walk to sample `0`.  The result lists `u[0], ..., u[nim1]`. -/
def backtrackReverse (b : ℕ) (lmin : ℤ) (d e : List (List ℚ)) : List ℚ :=
  let nl := (d.headD []).length
  let ni := d.length
  let nim1 := ni - 1
  let il0 := startLag lmin nl (d.getD nim1 [])
  backtrackLoop b lmin d e nl nim1 ni nim1 il0 [(((il0 : ℤ) + lmin : ℤ) : ℚ)]

/-- The shift-estimation pipeline of `DynamicWarping::findShifts` up to (and
excluding) the final `smoothShifts` call: compute errors, normalise,
`esmooth` nonlinear smoothings, forward accumulation, reverse backtracking.
`b` is the strain bound `_bstrain1` and `nl = 1+lagMax-lagMin`. -/
def findShiftsPre (extrap : ErrorExtrapolation) (p : ℕ) (lmin lmax : ℤ)
    (b esmooth : ℕ) (f g : List ℚ) : List ℚ :=
  let nl := (1 + lmax - lmin).toNat
  let e0 := normalizeErrors (computeErrors extrap p lmin nl f g)
  let e := smoothPasses b esmooth e0
  let d := accumulate true b e
  backtrackReverse b lmin d e

/-- The `_ref1` member (`RecursiveExponentialFilter*`): a raw owned pointer.
`valid sigma` is a live filter constructed with half-width `sigma`;
`dangling` records a pointer that was `delete`d but not nulled (it still
tests non-null in `if (_ref1)`). -/
inductive RefPtr
  | null
  | valid (sigma : ℚ)
  | dangling
deriving DecidableEq

/-- Configuration state of a `DynamicWarping` object.  `esmooth` is
`Option ℤ` because `_esmooth` is a plain `int` member: `none` models the
indeterminate value of a member no constructor or setter has written. -/
structure DWState where
  lmin : ℤ
  lmax : ℤ
  nl : ℤ
  extrap : ErrorExtrapolation
  epow : ℕ
  esmooth : Option ℤ
  usmooth1 : ℚ
  bstrain1 : ℤ
  ref1 : RefPtr
deriving DecidableEq

/-- `DynamicWarping::DynamicWarping(shiftMin, shiftMax)`: assigns `_lmin`,
`_lmax`, `_nl`, `_extrap`, `_epow`, `_usmooth1`, `_bstrain1`, `_ref1` — and
nothing else; in particular `_esmooth` is never written. -/
def DWconstruct (shiftMin shiftMax : ℤ) : DWState :=
  { lmin := shiftMin
    lmax := shiftMax
    nl := 1 + shiftMax - shiftMin
    extrap := ErrorExtrapolation.nearest
    epow := 2
    esmooth := none
    usmooth1 := 0
    bstrain1 := 1
    ref1 := RefPtr.null }

/-- `DynamicWarping::updateSmoothingFilter`:
`if (_ref1) delete _ref1;` frees a non-null pointer without nulling the
member, then `if (_usmooth1 > 0.0) _ref1 = new RecursiveExponentialFilter
(_usmooth1*_bstrain1);` reassigns it only when the factor is positive. -/
def updateSmoothingFilter (s : DWState) : DWState :=
  let freed := match s.ref1 with
    | RefPtr.null => RefPtr.null
    | _ => RefPtr.dangling
  { s with ref1 :=
      if 0 < s.usmooth1 then RefPtr.valid (s.usmooth1 * s.bstrain1) else freed }

/-- `DynamicWarping::setStrainMax`: `_bstrain1 = (int) ceil(1.0/strainMax);`
followed by `updateSmoothingFilter()`.  There is no validation of the
argument; the ceiling of the exact quotient models the double computation
(which for `strainMax = 0` divides by zero). -/
def setStrainMax (s : DWState) (strainMax : ℚ) : DWState :=
  updateSmoothingFilter { s with bstrain1 := ⌈1 / strainMax⌉ }

/-- `DynamicWarping::setShiftSmoothing`: `_usmooth1 = usmooth;` then
`updateSmoothingFilter()`. -/
def setShiftSmoothing (s : DWState) (usmooth : ℚ) : DWState :=
  updateSmoothingFilter { s with usmooth1 := usmooth }

/-- `DynamicWarping::setErrorSmoothing`: `_esmooth = esmooth;`. -/
def setErrorSmoothing (s : DWState) (esmooth : ℤ) : DWState :=
  { s with esmooth := some esmooth }

/-- `DynamicWarping::setErrorExtrapolation`. -/
def setErrorExtrapolation (s : DWState) (ee : ErrorExtrapolation) : DWState :=
  { s with extrap := ee }

/-- Whether `smoothShifts` takes the filtering branch: the guard is the
pointer test `if (_ref1)`, which is also true for a dangling pointer. -/
def smoothShiftsAppliesFilter (s : DWState) : Prop := s.ref1 ≠ RefPtr.null

instance (s : DWState) : Decidable (smoothShiftsAppliesFilter s) := by
  unfold smoothShiftsAppliesFilter; infer_instance

/-- `DynamicWarping::findShifts` as a function of the object state: the
error-smoothing loop bound is the member `_esmooth`, so the result is only
defined once that member has been written (`none` models the read of the
uninitialised member on a freshly constructed engine). -/
def findShiftsOfState (s : DWState) (f g : List ℚ) : Option (List ℚ) :=
  s.esmooth.map (fun n =>
    findShiftsPre s.extrap s.epow s.lmin s.lmax s.bstrain1.toNat n.toNat f g)

/-- State of a `RecursiveExponentialFilter` object.  The constructor
receives `sigma` and the derived decay `a = aFromSigma(sigma)` (see
`aFromSigmaRel` for the exact characterisation of that derived value); the
boundary-selection members `_ei` and `_zs` are modelled as `Option Bool`
since no operation of this core ever assigns them. -/
structure REFState where
  sigma1 : ℚ
  a1 : ℚ
  ei : Option Bool
  zs : Option Bool
deriving DecidableEq

/-- `RecursiveExponentialFilter::RecursiveExponentialFilter(sigma)`:
assigns `_sigma1` and `_a1` only. -/
def REFconstruct (sigma a : ℚ) : REFState :=
  { sigma1 := sigma, a1 := a, ei := none, zs := none }

/-- Exact characterisation of `RecursiveExponentialFilter::aFromSigma`:
`a = 0` for `sigma ≤ 0`, else `a = (1+ss-sqrt(1+2ss))/ss` with
`ss = sigma*sigma` — i.e. the root of `(1+ss*(1-a))^2 = 1+2ss` with
`1+ss*(1-a) ≥ 0` (stated square-root-free over `ℝ`). -/
def aFromSigmaRel (s a : ℝ) : Prop :=
  (s ≤ 0 ∧ a = 0) ∨
  (0 < s ∧ 0 ≤ 1 + s ^ 2 * (1 - a) ∧ (1 + s ^ 2 * (1 - a)) ^ 2 = 1 + 2 * s ^ 2)

/-- One step `y[i1] = yi = a*yi + b*y[i1]` of an exponential sweep that
reads the evolving buffer itself (this is the only form the second,
backward sweep of `smooth1Ei` takes; the first sweep also takes it when
the caller aliases input and output). -/
def eiStepA (a bb : ℚ) (st : List ℚ × ℚ) (i1 : ℕ) : List ℚ × ℚ :=
  (st.1.set i1 (a * st.2 + bb * st.1.getD i1 0), a * st.2 + bb * st.1.getD i1 0)

/-- One step `y[i1] = yi = a*yi + b*x[i1]` of the first sweep of
`smooth1Ei` when the input buffer `x` is distinct from the output. -/
def eiStepD (a bb : ℚ) (x : List ℚ) (st : List ℚ × ℚ) (i1 : ℕ) : List ℚ × ℚ :=
  (st.1.set i1 (a * st.2 + bb * x.getD i1 0), a * st.2 + bb * x.getD i1 0)

/-- `RecursiveExponentialFilter::smooth1Ei` run with input and output the
same buffer (`x` aliases `y`), as `findShifts` does via
`smoothShifts(u,u)`.  Every read of `x[i1]` becomes a read of the evolving
buffer. -/
def smooth1EiAliased (zs : Bool) (a : ℚ) (z0 : List ℚ) : List ℚ :=
  let n1 := z0.length
  let bb := 1 - a
  let sx := if zs then 1 else bb
  let y0 := sx * z0.getD 0 0
  let z1 := z0.set 0 y0
  let st2 := (List.range' 1 (n1 - 1 - 1)).foldl (eiStepA a bb) (z1, y0)
  let sx2 := sx / (1 + a)
  let sy2 := a / (1 + a)
  let vl := sy2 * st2.2 + sx2 * st2.1.getD (n1 - 1) 0
  let z3 := st2.1.set (n1 - 1) vl
  (((List.range (n1 - 1)).reverse).foldl (eiStepA a bb) (z3, vl)).1

/-- `RecursiveExponentialFilter::smooth1Ei` run with distinct input `x` and
output buffer (initial contents `y0buf`, same length). -/
def smooth1EiDistinct (zs : Bool) (a : ℚ) (x y0buf : List ℚ) : List ℚ :=
  let n1 := x.length
  let bb := 1 - a
  let sx := if zs then 1 else bb
  let y0 := sx * x.getD 0 0
  let z1 := y0buf.set 0 y0
  let st2 := (List.range' 1 (n1 - 1 - 1)).foldl (eiStepD a bb x) (z1, y0)
  let sx2 := sx / (1 + a)
  let sy2 := a / (1 + a)
  let vl := sy2 * st2.2 + sx2 * x.getD (n1 - 1) 0
  let z3 := st2.1.set (n1 - 1) vl
  (((List.range (n1 - 1)).reverse).foldl (eiStepA a bb) (z3, vl)).1

/-- Tail of `RecursiveExponentialFilter::smooth1Eo` after the initial
`y = (1-a)^2 * x` copy: the reversed triangular factorisation, reverse and
forward substitution.  It reads and writes only the output buffer `y1`.
The truncation bound `(int)ceil(log(e)/log(a))` (with `e` derived from
`FLT_EPSILON`) is data-independent and transcendental, so it enters as the
parameter `kRaw`; the source then clamps it by `min(kRaw, 2*n1-2)`. -/
def smooth1EoCore (zs : Bool) (a : ℚ) (kRaw : ℤ) (y1 : List ℚ) : List ℚ :=
  let n1 := y1.length
  let aa := a * a
  let ss := if zs then 1 - a else 1
  let gg := if zs then aa - a else aa
  let c := (1 - aa - ss) / ss
  let dd := 1 / (1 - aa + gg * (1 + c * aa ^ (n1 - 1)))
  let k1 : ℤ := min kRaw (2 * (n1 : ℤ) - 2)
  let m1 : ℤ := k1 - n1 + 1
  let y2 := y1
  let s1 := ((List.range' 1 m1.toNat).reverse).foldl
    (fun acc i1 => a * acc + y2.getD i1 0) 0
  let s2 := s1 * c
  let s3 := if (n1 : ℤ) - k1 < 1 then a * s2 + (1 + c) * y2.getD 0 0 else s2
  let m1b : ℤ := max ((n1 : ℤ) - k1) 1
  let s4 := (List.range' m1b.toNat (n1 - m1b.toNat)).foldl
    (fun acc i1 => a * acc + y2.getD i1 0) s3
  let ynm1 := s4 * dd
  let y3 := y2.set (n1 - 1) (y2.getD (n1 - 1) 0 - gg * ynm1)
  let y4 := ((List.range (n1 - 1)).reverse).foldl
    (fun y i1 => y.set i1 (y.getD i1 0 + a * y.getD (i1 + 1) 0)) y3
  let y5 := y4.set 0 (y4.getD 0 0 / ss)
  let y6 := (List.range' 1 (n1 - 1 - 1)).foldl
    (fun y i1 => y.set i1 (y.getD i1 0 + a * y.getD (i1 - 1) 0)) y5
  y6.set (n1 - 1) ynm1

/-- One step of the copy loop `y[i] = x[i]*(1-a)*(1-a)` of `smooth1Eo`
when the buffers alias: the cell is read just before it is overwritten. -/
def eoCopyStepA (c : ℚ) (z : List ℚ) (i : ℕ) : List ℚ := z.set i (z.getD i 0 * c)

/-- One step of the copy loop of `smooth1Eo` with a distinct input. -/
def eoCopyStepD (c : ℚ) (x : List ℚ) (z : List ℚ) (i : ℕ) : List ℚ :=
  z.set i (x.getD i 0 * c)

/-- `RecursiveExponentialFilter::smooth1Eo` with aliased input/output: the
initial element-by-element copy `y[i] = x[i]*(1-a)^2` reads each cell just
before overwriting it. -/
def smooth1EoAliased (zs : Bool) (a : ℚ) (kRaw : ℤ) (z0 : List ℚ) : List ℚ :=
  let z1 := (List.range z0.length).foldl (eoCopyStepA ((1 - a) * (1 - a))) z0
  smooth1EoCore zs a kRaw z1

/-- `RecursiveExponentialFilter::smooth1Eo` with distinct buffers (the
output buffer is resized to `x`'s length and then overwritten cellwise). -/
def smooth1EoDistinct (zs : Bool) (a : ℚ) (kRaw : ℤ) (x y0buf : List ℚ) : List ℚ :=
  let z1 := (List.range x.length).foldl (eoCopyStepD ((1 - a) * (1 - a)) x) y0buf
  smooth1EoCore zs a kRaw z1

/-- `RecursiveExponentialFilter::smooth1` dispatch, aliased buffers:
`if (a==0) y = x; else if (ei) smooth1Ei(...); else smooth1Eo(...);`. -/
def smooth1Aliased (ei zs : Bool) (a : ℚ) (kRaw : ℤ) (z0 : List ℚ) : List ℚ :=
  if a = 0 then z0
  else if ei then smooth1EiAliased zs a z0
  else smooth1EoAliased zs a kRaw z0

/-- `RecursiveExponentialFilter::smooth1` dispatch, distinct buffers
(`y = x` copies the input into the output). -/
def smooth1Distinct (ei zs : Bool) (a : ℚ) (kRaw : ℤ) (x y0buf : List ℚ) : List ℚ :=
  if a = 0 then x
  else if ei then smooth1EiDistinct zs a x y0buf
  else smooth1EoDistinct zs a kRaw x y0buf

/-- Adjacent-difference bound: every pair of consecutive samples of a shift
sequence differs by at most `c`. -/
def chainBound (c : ℚ) (l : List ℚ) : Prop :=
  List.Chain' (fun x y => |x - y| ≤ c) l

instance (c : ℚ) (l : List ℚ) : Decidable (chainBound c l) := by
  unfold chainBound; infer_instance

/-- A table is rectangular with row length `nl`. -/
def Rect (nl : ℕ) (m : List (List ℚ)) : Prop := ∀ r ∈ m, r.length = nl

theorem rampCons_ne_nil (du : ℚ) (k : ℕ) (acc : List ℚ) (h : acc ≠ []) :
    rampCons du k acc ≠ [] := by
  induction k generalizing acc with
  | zero => simpa [rampCons]
  | succ k ih => exact ih _ (by simp)

theorem rampCons_headD (du : ℚ) (k : ℕ) (acc : List ℚ) :
    (rampCons du k acc).headD 0 = acc.headD 0 + k * du := by
  induction k generalizing acc with
  | zero => simp [rampCons]
  | succ k ih =>
      rw [rampCons, ih]
      push_cast
      simp only [List.headD_cons]
      ring

theorem rampCons_getLast (du : ℚ) (k : ℕ) (acc : List ℚ) (h : acc ≠ []) :
    (rampCons du k acc).getLast? = acc.getLast? := by
  induction k generalizing acc with
  | zero => simp [rampCons]
  | succ k ih =>
      rw [rampCons, ih _ (by simp)]
      cases acc with
      | nil => exact absurd rfl h
      | cons x t => rfl

theorem rampCons_chainBound (du c : ℚ) (hdu : |du| ≤ c) (k : ℕ) :
    ∀ acc : List ℚ, acc ≠ [] → chainBound c acc →
      chainBound c (rampCons du k acc) := by
  induction k with
  | zero => intro acc _ hc; simpa [rampCons]
  | succ k ih =>
      intro acc h hc
      rw [rampCons]
      refine ih _ (by simp) ?_
      cases acc with
      | nil => exact absurd rfl h
      | cons x t =>
          exact List.chain'_cons.mpr ⟨by simpa, hc⟩

theorem rampCons_mem (du : ℚ) (k : ℕ) :
    ∀ acc : List ℚ, ∀ v ∈ rampCons du k acc,
      v ∈ acc ∨ ∃ j : ℕ, 1 ≤ j ∧ j ≤ k ∧ v = acc.headD 0 + j * du := by
  induction k with
  | zero => intro acc v hv; exact Or.inl (by simpa [rampCons] using hv)
  | succ k ih =>
      intro acc v hv
      rw [rampCons] at hv
      rcases ih _ v hv with h | ⟨j, hj1, hjk, hv2⟩
      · rcases List.mem_cons.mp h with h1 | h1
        · refine Or.inr ⟨1, le_refl _, by omega, ?_⟩
          rw [h1]; push_cast; ring
        · exact Or.inl h1
      · refine Or.inr ⟨j + 1, by omega, by omega, ?_⟩
        rw [hv2]
        simp only [List.headD_cons]
        push_cast
        ring

theorem btChoice_cases (b : ℕ) (d e : List (List ℚ)) (nl nim1 ii il : ℕ) :
    btChoice b d e nl nim1 ii il = il - 1 ∨
    btChoice b d e nl nim1 ii il = il ∨
    btChoice b d e nl nim1 ii il = (if il + 1 = nl then nl - 1 else il + 1) := by
  simp only [btChoice]
  split_ifs <;> tauto

theorem backtrackLoop_chainBound (b : ℕ) (hb : 1 ≤ b) (lmin : ℤ)
    (d e : List (List ℚ)) (nl nim1 : ℕ) (fuel : ℕ) :
    ∀ (ii il : ℕ) (acc : List ℚ), acc ≠ [] → ii ≤ nim1 →
      chainBound (1 / (b : ℚ)) acc →
      (ii ≠ 0 → acc.headD 0 = (((il : ℤ) + lmin : ℤ) : ℚ)) →
      chainBound (1 / (b : ℚ)) (backtrackLoop b lmin d e nl nim1 fuel ii il acc) := by
  have hbq : (0 : ℚ) < (b : ℚ) := by exact_mod_cast hb
  induction fuel with
  | zero =>
      intro ii il acc _ _ hc _
      simpa [backtrackLoop] using hc
  | succ fuel ih =>
      intro ii il acc hne hii hc hhead
      simp only [backtrackLoop]
      by_cases h0 : ii = 0
      · simpa [h0] using hc
      rw [if_neg h0]
      set il2 := btChoice b d e nl nim1 ii il with hil2def
      have hcases := btChoice_cases b d e nl nim1 ii il
      rw [← hil2def] at hcases
      have hhead0 : acc.headD 0 = (((il : ℤ) + lmin : ℤ) : ℚ) := hhead h0
      have hZ : |(il2 : ℤ) - (il : ℤ)| ≤ 1 := by
        rw [abs_le]
        rcases hcases with h | h | h
        · rw [h]; omega
        · rw [h]; omega
        · rw [h]; split_ifs with heq <;> omega
      have hdiff : |(((il2 : ℤ) + lmin : ℤ) : ℚ) - acc.headD 0| ≤ 1 := by
        rw [hhead0]
        have : (((il2 : ℤ) + lmin : ℤ) : ℚ) - (((il : ℤ) + lmin : ℤ) : ℚ)
            = (((il2 : ℤ) - (il : ℤ) : ℤ) : ℚ) := by push_cast; ring
        rw [this, ← Int.cast_abs]
        exact_mod_cast hZ
      by_cases htr : il2 = il - 1 ∨ il2 = (if il + 1 = nl then nl - 1 else il + 1)
      · rw [if_pos htr]
        set du := ((((il2 : ℤ) + lmin : ℤ) : ℚ) - acc.headD 0) * (1 / (b : ℚ)) with hdu
        have hdub : |du| ≤ 1 / (b : ℚ) := by
          rw [hdu, abs_mul, abs_of_pos (by positivity : (0:ℚ) < 1 / (b:ℚ))]
          calc |(((il2 : ℤ) + lmin : ℤ) : ℚ) - acc.headD 0| * (1 / (b : ℚ))
              ≤ 1 * (1 / (b : ℚ)) := by
                apply mul_le_mul_of_nonneg_right hdiff (by positivity)
            _ = 1 / (b : ℚ) := one_mul _
        apply ih
        · exact rampCons_ne_nil _ _ _ hne
        · exact min_le_left _ _
        · exact rampCons_chainBound du _ hdub _ _ hne hc
        · intro hjb0
          rw [rampCons_headD]
          have hjb : min nim1 (ii - b) = ii - b := by omega
          have hji : min nim1 (ii - 1) = ii - 1 := by omega
          have hiib : b + 1 ≤ ii := by
            rcases Nat.lt_or_ge ii (b + 1) with h | h
            · exfalso; apply hjb0; omega
            · exact h
          have hm : 1 + (min nim1 (ii - 1) - min nim1 (ii - b)) = b := by omega
          rw [hm, hdu, hhead0]
          field_simp
          ring
      · rw [if_neg htr]
        have hileq : il2 = il := by
          rcases hcases with h | h | h
          · exact absurd (Or.inl h) htr
          · exact h
          · exact absurd (Or.inr h) htr
        apply ih
        · simp
        · omega
        · cases acc with
          | nil => exact absurd rfl hne
          | cons x t =>
              refine List.chain'_cons.mpr ⟨?_, hc⟩
              have : (x :: t).headD 0 = x := rfl
              rw [← this, hhead0, hileq]
              simp only [sub_self, abs_zero]
              positivity
        · intro _
          rfl

theorem backtrackLoop_mem_bounds (b : ℕ) (hb : 1 ≤ b) (lmin : ℤ)
    (d e : List (List ℚ)) (nl nim1 : ℕ) (hnl : 1 ≤ nl) (fuel : ℕ) :
    ∀ (ii il : ℕ) (acc : List ℚ), acc ≠ [] → ii ≤ nim1 → il < nl →
      (∀ v ∈ acc, (lmin : ℚ) ≤ v ∧ v ≤ (lmin : ℚ) + ((nl - 1 : ℕ) : ℚ)) →
      (ii ≠ 0 → acc.headD 0 = (((il : ℤ) + lmin : ℤ) : ℚ)) →
      ∀ v ∈ backtrackLoop b lmin d e nl nim1 fuel ii il acc,
        (lmin : ℚ) ≤ v ∧ v ≤ (lmin : ℚ) + ((nl - 1 : ℕ) : ℚ) := by
  have hbq : (0 : ℚ) < (b : ℚ) := by exact_mod_cast hb
  induction fuel with
  | zero =>
      intro ii il acc _ _ _ hbnd _ v hv
      rw [backtrackLoop] at hv
      exact hbnd v hv
  | succ fuel ih =>
      intro ii il acc hne hii hil hbnd hhead
      simp only [backtrackLoop]
      by_cases h0 : ii = 0
      · rw [if_pos h0]; exact hbnd
      rw [if_neg h0]
      set il2 := btChoice b d e nl nim1 ii il with hil2def
      have hcases := btChoice_cases b d e nl nim1 ii il
      rw [← hil2def] at hcases
      have hhead0 : acc.headD 0 = (((il : ℤ) + lmin : ℤ) : ℚ) := hhead h0
      have hil2lt : il2 < nl := by
        rcases hcases with h | h | h
        · omega
        · omega
        · rw [h]; split_ifs <;> omega
      have hZ : |(il2 : ℤ) - (il : ℤ)| ≤ 1 := by
        rw [abs_le]
        rcases hcases with h | h | h
        · rw [h]; omega
        · rw [h]; omega
        · rw [h]; split_ifs with heq <;> omega
      by_cases htr : il2 = il - 1 ∨ il2 = (if il + 1 = nl then nl - 1 else il + 1)
      · rw [if_pos htr]
        set du := ((((il2 : ℤ) + lmin : ℤ) : ℚ) - acc.headD 0) * (1 / (b : ℚ)) with hdu
        have hdu2 : du = (((il2 : ℚ) - (il : ℚ)) / (b : ℚ)) := by
          rw [hdu, hhead0]; push_cast; ring
        have hm : 1 + (min nim1 (ii - 1) - min nim1 (ii - b)) ≤ b := by omega
        apply ih
        · exact rampCons_ne_nil _ _ _ hne
        · exact min_le_left _ _
        · exact hil2lt
        · intro v hv
          rcases rampCons_mem du _ acc v hv with h | ⟨j, hj1, hjk, hveq⟩
          · exact hbnd v h
          · have hjb : (j : ℚ) ≤ (b : ℚ) := by exact_mod_cast le_trans hjk hm
            have hj0 : (0 : ℚ) ≤ (j : ℚ) := by positivity
            have hveq2 : v = (il : ℚ) + (lmin : ℚ) + (j : ℚ) * (((il2 : ℚ) - (il : ℚ)) / (b : ℚ)) := by
              rw [hveq, hhead0, hdu2]; push_cast; ring
            have hZq : |(il2 : ℚ) - (il : ℚ)| ≤ 1 := by
              have : ((|(il2 : ℤ) - (il : ℤ)| : ℤ) : ℚ) ≤ 1 := by exact_mod_cast hZ
              rwa [Int.cast_abs, Int.cast_sub, Int.cast_natCast, Int.cast_natCast] at this
            have hil2q : (il2 : ℚ) ≤ ((nl - 1 : ℕ) : ℚ) := by
              have : (il2 : ℕ) ≤ nl - 1 := by omega
              exact_mod_cast this
            have hilq : (il : ℚ) ≤ ((nl - 1 : ℕ) : ℚ) := by
              have : (il : ℕ) ≤ nl - 1 := by omega
              exact_mod_cast this
            have hil0 : (0 : ℚ) ≤ (il : ℚ) := by positivity
            have hil20 : (0 : ℚ) ≤ (il2 : ℚ) := by positivity
            rw [hveq2]
            rcases le_or_lt (il : ℚ) (il2 : ℚ) with hod | hod
            · constructor
              · have : (0:ℚ) ≤ (j : ℚ) * (((il2 : ℚ) - (il : ℚ)) / (b : ℚ)) :=
                  mul_nonneg hj0 (div_nonneg (by linarith) (le_of_lt hbq))
                linarith
              · have h1 : (j : ℚ) * (((il2 : ℚ) - (il : ℚ)) / (b : ℚ))
                    ≤ (il2 : ℚ) - (il : ℚ) := by
                  have hstep : (j : ℚ) * ((il2 : ℚ) - (il : ℚ))
                      ≤ (b : ℚ) * ((il2 : ℚ) - (il : ℚ)) :=
                    mul_le_mul_of_nonneg_right hjb (by linarith)
                  have hstep2 := mul_le_mul_of_nonneg_right hstep
                    (by positivity : (0:ℚ) ≤ ((b : ℚ))⁻¹)
                  calc (j : ℚ) * (((il2 : ℚ) - (il : ℚ)) / (b : ℚ))
                      = (j : ℚ) * ((il2 : ℚ) - (il : ℚ)) * ((b : ℚ))⁻¹ := by ring
                    _ ≤ (b : ℚ) * ((il2 : ℚ) - (il : ℚ)) * ((b : ℚ))⁻¹ := hstep2
                    _ = (il2 : ℚ) - (il : ℚ) := by field_simp
                linarith
            · constructor
              · have h1 : (il2 : ℚ) - (il : ℚ)
                    ≤ (j : ℚ) * (((il2 : ℚ) - (il : ℚ)) / (b : ℚ)) := by
                  have hstep : (b : ℚ) * ((il2 : ℚ) - (il : ℚ))
                      ≤ (j : ℚ) * ((il2 : ℚ) - (il : ℚ)) :=
                    mul_le_mul_of_nonpos_right hjb (by linarith)
                  have hstep2 := mul_le_mul_of_nonneg_right hstep
                    (by positivity : (0:ℚ) ≤ ((b : ℚ))⁻¹)
                  calc (il2 : ℚ) - (il : ℚ)
                      = (b : ℚ) * ((il2 : ℚ) - (il : ℚ)) * ((b : ℚ))⁻¹ := by field_simp
                    _ ≤ (j : ℚ) * ((il2 : ℚ) - (il : ℚ)) * ((b : ℚ))⁻¹ := hstep2
                    _ = (j : ℚ) * (((il2 : ℚ) - (il : ℚ)) / (b : ℚ)) := by ring
                linarith
              · have : (j : ℚ) * (((il2 : ℚ) - (il : ℚ)) / (b : ℚ)) ≤ 0 := by
                  apply mul_nonpos_of_nonneg_of_nonpos hj0
                  apply div_nonpos_of_nonpos_of_nonneg (by linarith) (by linarith)
                linarith
        · intro hjb0
          rw [rampCons_headD]
          have hiib : b + 1 ≤ ii := by
            rcases Nat.lt_or_ge ii (b + 1) with h | h
            · exfalso; apply hjb0; omega
            · exact h
          have hmeq : 1 + (min nim1 (ii - 1) - min nim1 (ii - b)) = b := by omega
          rw [hmeq, hdu, hhead0]
          field_simp
          ring
      · rw [if_neg htr]
        have hileq : il2 = il := by
          rcases hcases with h | h | h
          · exact absurd (Or.inl h) htr
          · exact h
          · exact absurd (Or.inr h) htr
        apply ih
        · simp
        · omega
        · omega
        · intro v hv
          rcases List.mem_cons.mp hv with h | h
          · subst h
            constructor
            · push_cast
              have : (0:ℚ) ≤ (il2 : ℚ) := by positivity
              linarith
            · push_cast
              have : (il2 : ℚ) ≤ ((nl - 1 : ℕ) : ℚ) := by
                have : (il2 : ℕ) ≤ nl - 1 := by omega
                exact_mod_cast this
              linarith
          · exact hbnd v h
        · intro _
          rfl

theorem backtrackLoop_getLast (b : ℕ) (lmin : ℤ) (d e : List (List ℚ))
    (nl nim1 : ℕ) (fuel : ℕ) :
    ∀ (ii il : ℕ) (acc : List ℚ), acc ≠ [] →
      (backtrackLoop b lmin d e nl nim1 fuel ii il acc).getLast? = acc.getLast? := by
  induction fuel with
  | zero => intro ii il acc _; simp [backtrackLoop]
  | succ fuel ih =>
      intro ii il acc hne
      simp only [backtrackLoop]
      by_cases h0 : ii = 0
      · rw [if_pos h0]
      rw [if_neg h0]
      have htail : ∀ x : ℚ, (x :: acc).getLast? = acc.getLast? := by
        intro x
        cases acc with
        | nil => exact absurd rfl hne
        | cons y t => rfl
      split_ifs <;>
        first
        | (rw [ih _ _ _ (rampCons_ne_nil _ _ _ hne)]
           exact rampCons_getLast _ _ _ hne)
        | (rw [ih _ _ _ (by simp)]
           exact htail _)

theorem argminFold_spec (row : List ℚ) (L : List ℕ) :
    ∀ st : ℕ × ℚ, st.2 = row.getD st.1 0 →
      (argminFold row st L).2 = row.getD (argminFold row st L).1 0 ∧
      ((argminFold row st L).1 = st.1 ∨ (argminFold row st L).1 ∈ L) ∧
      (argminFold row st L).2 ≤ st.2 ∧
      (∀ j ∈ L, (argminFold row st L).2 ≤ row.getD j 0) := by
  induction L with
  | nil =>
      intro st hst
      refine ⟨hst, Or.inl rfl, le_refl _, ?_⟩
      intro j hj
      exact absurd hj (List.not_mem_nil j)
  | cons a t ih =>
      intro st hst
      have hfold : argminFold row st (a :: t)
          = argminFold row (if row.getD a 0 < st.2 then (a, row.getD a 0) else st) t := by
        rfl
      by_cases h : row.getD a 0 < st.2
      · rw [hfold, if_pos h]
        obtain ⟨i1, i2, i3, i4⟩ := ih (a, row.getD a 0) rfl
        refine ⟨i1, ?_, ?_, ?_⟩
        · rcases i2 with h2 | h2
          · exact Or.inr (List.mem_cons.mpr (Or.inl h2))
          · exact Or.inr (List.mem_cons.mpr (Or.inr h2))
        · exact le_trans i3 (le_of_lt h)
        · intro j hj
          rcases List.mem_cons.mp hj with hj2 | hj2
          · rw [hj2]; exact i3
          · exact i4 j hj2
      · rw [hfold, if_neg h]
        obtain ⟨i1, i2, i3, i4⟩ := ih st hst
        refine ⟨i1, ?_, i3, ?_⟩
        · rcases i2 with h2 | h2
          · exact Or.inl h2
          · exact Or.inr (List.mem_cons.mpr (Or.inr h2))
        · intro j hj
          rcases List.mem_cons.mp hj with hj2 | hj2
          · rw [hj2]
            exact le_trans i3 (le_of_not_lt h)
          · exact i4 j hj2

theorem startLag_lt (lmin : ℤ) (nl : ℕ) (row : List ℚ) (hnl : 1 ≤ nl) :
    startLag lmin nl row < nl := by
  simp only [startLag]
  have h0 : (max 0 (min ((nl : ℤ) - 1) (-lmin))).toNat < nl := by omega
  obtain ⟨_, h2, _, _⟩ := argminFold_spec row (List.range' 1 (nl - 1))
    ((max 0 (min ((nl : ℤ) - 1) (-lmin))).toNat,
      row.getD (max 0 (min ((nl : ℤ) - 1) (-lmin))).toNat 0) rfl
  rcases h2 with h2 | h2
  · rw [h2]; exact h0
  · have := List.mem_range'_1.mp h2
    omega

theorem rect_headD (nl : ℕ) (m : List (List ℚ)) (hm : m ≠ []) (hr : Rect nl m) :
    (m.headD []).length = nl := by
  cases m with
  | nil => exact absurd rfl hm
  | cons r t => exact hr r (List.mem_cons_self r t)

theorem set_preserves_rect (nl : ℕ) (m : List (List ℚ)) (i : ℕ) (row : List ℚ)
    (hr : Rect nl m) (hrow : row.length = nl) : Rect nl (m.set i row) := by
  intro r hrm
  rcases List.mem_or_eq_of_mem_set hrm with h | h
  · exact hr r h
  · rw [h]; exact hrow

theorem foldl_step_length (step : List (List ℚ) → ℕ → List (List ℚ))
    (hstep : ∀ t i, (step t i).length = t.length) :
    ∀ (L : List ℕ) (t : List (List ℚ)), (L.foldl step t).length = t.length := by
  intro L
  induction L with
  | nil => intro t; rfl
  | cons a l ih => intro t; rw [List.foldl_cons, ih, hstep]

theorem foldl_step_rect (nl : ℕ) (step : List (List ℚ) → ℕ → List (List ℚ))
    (hstep : ∀ t i, Rect nl t → Rect nl (step t i)) :
    ∀ (L : List ℕ) (t : List (List ℚ)), Rect nl t → Rect nl (L.foldl step t) := by
  intro L
  induction L with
  | nil => intro t ht; exact ht
  | cons a l ih => intro t ht; rw [List.foldl_cons]; exact ih _ (hstep t a ht)

theorem pass1_length (p : ℕ) (lmin : ℤ) (nl : ℕ) (f g : List ℚ) :
    (pass1 p lmin nl f g).length = f.length := by
  simp [pass1]

theorem pass1_rect (p : ℕ) (lmin : ℤ) (nl : ℕ) (f g : List ℚ) :
    Rect nl (pass1 p lmin nl f g) := by
  intro r hr
  simp only [pass1, List.mem_map] at hr
  obtain ⟨i, _, hre⟩ := hr
  rw [← hre]
  simp

theorem fillRow_length (extrap : ErrorExtrapolation) (p : ℕ) (lmin : ℤ) (nl : ℕ)
    (f g : List ℚ) (tbl : List (List ℚ)) (i : ℕ) :
    (fillRow extrap p lmin nl f g tbl i).length = nl := by
  simp [fillRow]

theorem computeErrors_length (extrap : ErrorExtrapolation) (p : ℕ) (lmin : ℤ)
    (nl : ℕ) (f g : List ℚ) :
    (computeErrors extrap p lmin nl f g).length = f.length := by
  unfold computeErrors
  rw [foldl_step_length _ (fun t i => List.length_set t _ _), pass1_length]

theorem computeErrors_rect (extrap : ErrorExtrapolation) (p : ℕ) (lmin : ℤ)
    (nl : ℕ) (f g : List ℚ) :
    Rect nl (computeErrors extrap p lmin nl f g) := by
  unfold computeErrors
  apply foldl_step_rect
  · intro t i ht
    exact set_preserves_rect nl t i _ ht (fillRow_length _ _ _ _ _ _ _ _)
  · exact pass1_rect p lmin nl f g

theorem shiftAndScale_length (emin emax : ℚ) (e : List (List ℚ)) :
    (shiftAndScale emin emax e).length = e.length := by
  simp [shiftAndScale]

theorem shiftAndScale_rect (nl : ℕ) (emin emax : ℚ) (e : List (List ℚ))
    (hr : Rect nl e) : Rect nl (shiftAndScale emin emax e) := by
  intro r h
  simp only [shiftAndScale, List.mem_map] at h
  obtain ⟨row, hrow, hre⟩ := h
  rw [← hre, List.length_map]
  exact hr row hrow

theorem normalizeErrors_length (e : List (List ℚ)) :
    (normalizeErrors e).length = e.length := shiftAndScale_length _ _ _

theorem normalizeErrors_rect (nl : ℕ) (e : List (List ℚ)) (hr : Rect nl e) :
    Rect nl (normalizeErrors e) := shiftAndScale_rect _ _ _ _ hr

theorem accumulate_length (fwd : Bool) (b : ℕ) (e : List (List ℚ)) :
    (accumulate fwd b e).length = e.length := by
  unfold accumulate
  rw [foldl_step_length, List.length_set, List.length_replicate]
  intro t ii
  rw [foldl_step_length _ (fun t2 il => List.length_set t2 _ _)]

theorem accumulate_rect (fwd : Bool) (b : ℕ) (e : List (List ℚ)) :
    Rect ((e.headD []).length) (accumulate fwd b e) := by
  unfold accumulate
  apply foldl_step_rect
  · intro t ii ht
    apply foldl_step_rect
    · intro t2 il ht2
      by_cases hii : ii < t2.length
      · apply set_preserves_rect _ _ _ _ ht2
        rw [List.length_set]
        have : t2.getD ii [] = t2[ii] := List.getD_eq_getElem t2 [] hii
        rw [this]
        exact ht2 _ (List.getElem_mem hii)
      · rw [List.set_eq_of_length_le (by omega)]
        exact ht2
    · exact ht
  · intro r hr
    rcases List.mem_or_eq_of_mem_set hr with h | h
    · rw [List.eq_of_mem_replicate h]; simp
    · rw [h]; simp

theorem smoothErrors1_length (b : ℕ) (e : List (List ℚ)) :
    (smoothErrors1 b e).length = e.length := by
  simp [smoothErrors1]

theorem smoothErrors1_rect (b : ℕ) (e : List (List ℚ)) :
    Rect ((e.headD []).length) (smoothErrors1 b e) := by
  intro r hr
  simp only [smoothErrors1, List.mem_map] at hr
  obtain ⟨i, _, hre⟩ := hr
  rw [← hre]
  simp

theorem smoothPasses_shape (b : ℕ) (nl : ℕ) :
    ∀ (n : ℕ) (e : List (List ℚ)), e ≠ [] → Rect nl e →
      (smoothPasses b n e).length = e.length ∧ Rect nl (smoothPasses b n e) := by
  intro n
  induction n with
  | zero => intro e _ hr; exact ⟨rfl, hr⟩
  | succ n ih =>
      intro e hne hr
      rw [smoothPasses]
      have hlen : (smoothErrors b e).length = e.length := by
        unfold smoothErrors
        rw [normalizeErrors_length, smoothErrors1_length]
      have hrect : Rect nl (smoothErrors b e) := by
        unfold smoothErrors
        apply normalizeErrors_rect
        have := smoothErrors1_rect b e
        rwa [rect_headD nl e hne hr] at this
      have hne2 : smoothErrors b e ≠ [] := by
        intro hcon
        apply hne
        have := hlen
        rw [hcon] at this
        exact List.length_eq_zero.mp this.symm
      obtain ⟨l1, r1⟩ := ih (smoothErrors b e) hne2 hrect
      exact ⟨by rw [l1, hlen], r1⟩

/-- C1: for every valid configuration (`lagMax - lagMin > 1`,
`strainMax ∈ (0,1]`) and every pair of non-empty input sequences, the shift
sequence produced by `backtrackReverse` (the output of `findShifts` before
shift smoothing) satisfies `|u[i] - u[i-1]| ≤ 1/b` for every adjacent pair
of samples, where `b = ceil(1/strainMax)`; this holds also at clamped
boundaries where the effective backtracking stride is shorter than `b`. -/
theorem c1_strain_invariant (extrap : ErrorExtrapolation) (p esmooth : ℕ)
    (lagMin lagMax : ℤ) (strainMax : ℚ) (f g : List ℚ)
    (hlag : 1 < lagMax - lagMin) (hs0 : 0 < strainMax) (hs1 : strainMax ≤ 1)
    (hf : f ≠ []) (hg : g ≠ []) :
    chainBound (1 / ((⌈1 / strainMax⌉.toNat : ℕ) : ℚ))
      (findShiftsPre extrap p lagMin lagMax ⌈1 / strainMax⌉.toNat esmooth f g) := by
  have hb : 1 ≤ ⌈1 / strainMax⌉.toNat := by
    have h1 : (1 : ℚ) ≤ 1 / strainMax := by
      rw [le_div_iff₀ hs0]; linarith
    have h2 : (1 : ℚ) ≤ (⌈1 / strainMax⌉ : ℚ) := le_trans h1 (Int.le_ceil _)
    have h3 : (1 : ℤ) ≤ ⌈1 / strainMax⌉ := by exact_mod_cast h2
    omega
  simp only [findShiftsPre, backtrackReverse]
  apply backtrackLoop_chainBound _ hb
  · simp
  · exact le_refl _
  · exact List.chain'_singleton _
  · intro _
    rfl

/-- Witness for C1 at a concrete valid configuration. -/
theorem c1_witness :
    (1 : ℤ) < 1 - (-1) ∧ (0 : ℚ) < 1 ∧ (1 : ℚ) ≤ 1 ∧
    chainBound (1 / ((⌈(1 : ℚ) / 1⌉.toNat : ℕ) : ℚ))
      (findShiftsPre ErrorExtrapolation.nearest 2 (-1) 1 ⌈(1 : ℚ) / 1⌉.toNat 0
        [0] [0]) :=
  ⟨by norm_num, by norm_num, le_refl 1,
    c1_strain_invariant ErrorExtrapolation.nearest 2 0 (-1) 1 1 [0] [0]
      (by norm_num) (by norm_num) (le_refl 1) (by simp) (by simp)⟩

/-- C5: for every valid configuration and non-empty inputs, every shift
value written by `backtrack`, including the interpolated ramp values
produced when a lag transition is spread over the stride, lies in
`[lagMin, lagMax]`. -/
theorem c5_range_invariant (extrap : ErrorExtrapolation) (p esmooth : ℕ)
    (lagMin lagMax : ℤ) (strainMax : ℚ) (f g : List ℚ)
    (hlag : 1 < lagMax - lagMin) (hs0 : 0 < strainMax) (hs1 : strainMax ≤ 1)
    (hf : f ≠ []) (hg : g ≠ []) :
    ∀ v ∈ findShiftsPre extrap p lagMin lagMax ⌈1 / strainMax⌉.toNat esmooth f g,
      (lagMin : ℚ) ≤ v ∧ v ≤ (lagMax : ℚ) := by
  have hb : 1 ≤ ⌈1 / strainMax⌉.toNat := by
    have h1 : (1 : ℚ) ≤ 1 / strainMax := by
      rw [le_div_iff₀ hs0]; linarith
    have h2 : (1 : ℚ) ≤ (⌈1 / strainMax⌉ : ℚ) := le_trans h1 (Int.le_ceil _)
    have h3 : (1 : ℤ) ≤ ⌈1 / strainMax⌉ := by exact_mod_cast h2
    omega
  set b := ⌈1 / strainMax⌉.toNat with hbdef
  set nl := (1 + lagMax - lagMin).toNat with hnldef
  have hnl : 1 ≤ nl := by omega
  set e0 := normalizeErrors (computeErrors extrap p lagMin nl f g) with he0
  have he0len : e0.length = f.length := by
    rw [he0, normalizeErrors_length, computeErrors_length]
  have he0rect : Rect nl e0 := by
    rw [he0]
    exact normalizeErrors_rect nl _ (computeErrors_rect extrap p lagMin nl f g)
  have he0ne : e0 ≠ [] := by
    intro hcon
    apply hf
    rw [hcon] at he0len
    exact List.length_eq_zero.mp he0len.symm
  obtain ⟨heslen, hesrect⟩ := smoothPasses_shape b nl esmooth e0 he0ne he0rect
  set es := smoothPasses b esmooth e0 with hes
  have hesne : es ≠ [] := by
    intro hcon
    apply he0ne
    rw [hcon] at heslen
    exact List.length_eq_zero.mp heslen.symm
  set dt := accumulate true b es with hdt
  have hdtlen : dt.length = es.length := accumulate_length true b es
  have hdtrect : Rect nl dt := by
    have := accumulate_rect true b es
    rwa [rect_headD nl es hesne hesrect] at this
  have hdtne : dt ≠ [] := by
    intro hcon
    apply hesne
    rw [hcon] at hdtlen
    exact List.length_eq_zero.mp hdtlen.symm
  have hdthead : (dt.headD []).length = nl := rect_headD nl dt hdtne hdtrect
  have hcast : (lagMin : ℚ) + ((nl - 1 : ℕ) : ℚ) = (lagMax : ℚ) := by
    have h1 : ((nl - 1 : ℕ) : ℤ) = lagMax - lagMin := by omega
    have h2 : ((nl - 1 : ℕ) : ℚ) = ((lagMax - lagMin : ℤ) : ℚ) := by
      exact_mod_cast congrArg (fun z : ℤ => (z : ℚ)) h1
    rw [h2]
    push_cast
    ring
  intro v hv
  simp only [findShiftsPre, backtrackReverse] at hv
  rw [← he0, ← hes, ← hdt, hdthead] at hv
  have hil0 := startLag_lt lagMin nl (dt.getD (dt.length - 1) []) hnl
  have := backtrackLoop_mem_bounds b hb lagMin dt es nl (dt.length - 1) hnl
    dt.length (dt.length - 1) (startLag lagMin nl (dt.getD (dt.length - 1) []))
    [(((startLag lagMin nl (dt.getD (dt.length - 1) []) : ℤ) + lagMin : ℤ) : ℚ)]
    (by simp) (le_refl _) hil0
    (by
      intro w hw
      rw [List.mem_singleton] at hw
      subst hw
      constructor
      · push_cast
        have : (0 : ℚ) ≤ ((startLag lagMin nl (dt.getD (dt.length - 1) []) : ℕ) : ℚ) := by
          positivity
        linarith
      · push_cast
        have : ((startLag lagMin nl (dt.getD (dt.length - 1) []) : ℕ) : ℚ)
            ≤ ((nl - 1 : ℕ) : ℚ) := by
          exact_mod_cast Nat.le_sub_one_of_lt hil0
        linarith [hcast])
    (fun _ => rfl) v hv
  obtain ⟨hlo, hhi⟩ := this
  exact ⟨hlo, by linarith [hcast]⟩

/-- Witness for C5 at a concrete valid configuration. -/
theorem c5_witness :
    (1 : ℤ) < 1 - (-1) ∧ (0 : ℚ) < 1 ∧ (1 : ℚ) ≤ 1 ∧
    (∀ v ∈ findShiftsPre ErrorExtrapolation.nearest 2 (-1) 1
        ⌈(1 : ℚ) / 1⌉.toNat 0 [0] [0],
      ((-1 : ℤ) : ℚ) ≤ v ∧ v ≤ ((1 : ℤ) : ℚ)) :=
  ⟨by norm_num, by norm_num, le_refl 1,
    c5_range_invariant ErrorExtrapolation.nearest 2 0 (-1) 1 1 [0] [0]
      (by norm_num) (by norm_num) (le_refl 1) (by simp) (by simp)⟩

/-- C2 (amended): `backtrack` does start at the table edge opposite the
accumulation start (sample `ni-1` for `backtrackReverse`) and sets `u`
there to the selected lag plus `lagMin`; but the selected lag index
minimises `d` at that edge only over the candidate set consisting of the
initial candidate `clamp(-lagMin, 0, nl-1)` together with the scanned
indices `1..nl-1` — lag index `0` is examined only when it is the initial
candidate (in particular it can be missed when `lagMin < 0`). -/
theorem c2_amended_edge_argmin (b : ℕ) (lmin : ℤ) (d e : List (List ℚ))
    (nl : ℕ) (row : List ℚ) (il0 sel : ℕ)
    (hnl : nl = (d.headD []).length)
    (hrow : row = d.getD (d.length - 1) [])
    (hil0 : il0 = (max 0 (min ((nl : ℤ) - 1) (-lmin))).toNat)
    (hstart : sel = startLag lmin nl row) :
    (backtrackReverse b lmin d e).getLast? = some (((sel : ℤ) + lmin : ℤ) : ℚ) ∧
    (sel = il0 ∨ (1 ≤ sel ∧ sel < nl)) ∧
    row.getD sel 0 ≤ row.getD il0 0 ∧
    (∀ j, 1 ≤ j → j < nl → row.getD sel 0 ≤ row.getD j 0) := by
  subst hnl
  subst hrow
  subst hil0
  subst hstart
  set nl := (d.headD []).length with hnl
  set row := d.getD (d.length - 1) [] with hrow
  set il0 := (max 0 (min ((nl : ℤ) - 1) (-lmin))).toNat with hil0
  set sel := startLag lmin nl row with hstart
  obtain ⟨s1, s2, s3, s4⟩ := argminFold_spec row (List.range' 1 (nl - 1))
    (il0, row.getD il0 0) rfl
  have hsel : sel
      = (argminFold row (il0, row.getD il0 0) (List.range' 1 (nl - 1))).1 := by
    simp only [hstart, startLag]
  refine ⟨?_, ?_, ?_, ?_⟩
  · simp only [backtrackReverse]
    rw [backtrackLoop_getLast _ _ _ _ _ _ _ _ _ _ (by simp)]
    rfl
  · rw [hsel]
    rcases s2 with h | h
    · exact Or.inl h
    · right
      have := List.mem_range'_1.mp h
      omega
  · rw [hsel, ← s1]
    exact s3
  · intro j hj1 hj2
    rw [hsel, ← s1]
    apply s4
    rw [List.mem_range'_1]
    omega

/-- C2 counterexample: with `lagMin = -2` (so `nl = 3`) and edge costs
`d[0] = [0, 5, 3]`, the unique minimiser of `d` at the edge is lag index
`0` (cost `0 < 3` and `0 < 5`), whose shift would be `0 + lagMin = -2`;
but `backtrackReverse` writes `0` at the edge (it starts its scan at
`jl = 1` from the initial candidate `clamp(-lagMin) = 2`), so the claim
that the selected lag minimises `d` over all lag indices is false. -/
theorem c2_counterexample :
    (backtrackReverse 1 (-2) [[(0 : ℚ), 5, 3]] [[(0 : ℚ), 0, 0]]).getLast?
      = some 0 ∧
    get2 [[(0 : ℚ), 5, 3]] 0 0 < get2 [[(0 : ℚ), 5, 3]] 0 1 ∧
    get2 [[(0 : ℚ), 5, 3]] 0 0 < get2 [[(0 : ℚ), 5, 3]] 0 2 ∧
    (0 : ℚ) ≠ ((0 : ℤ) : ℚ) + ((-2 : ℤ) : ℚ) := by
  refine ⟨by decide, by decide, by decide, by norm_num⟩

/-- Witness for the amended C2 at the concrete input of the counterexample. -/
theorem c2_witness :
    (backtrackReverse 1 (-2) [[(0 : ℚ), 5, 3]] [[(0 : ℚ), 0, 0]]).getLast?
      = some (((startLag (-2) 3 [(0 : ℚ), 5, 3] : ℤ) + (-2) : ℤ) : ℚ) :=
  (c2_amended_edge_argmin 1 (-2) [[(0 : ℚ), 5, 3]] [[(0 : ℚ), 0, 0]]
    3 [(0 : ℚ), 5, 3] 2 (startLag (-2) 3 [(0 : ℚ), 5, 3])
    rfl rfl (by decide) rfl).1

theorem minmaxFold_bounds (vs : List ℚ) :
    ∀ pr : ℚ × ℚ,
      (vs.foldl (fun pr2 v =>
        (if v < pr2.1 then v else pr2.1, if pr2.2 < v then v else pr2.2)) pr).1 ≤ pr.1 ∧
      pr.2 ≤ (vs.foldl (fun pr2 v =>
        (if v < pr2.1 then v else pr2.1, if pr2.2 < v then v else pr2.2)) pr).2 ∧
      (∀ v ∈ vs,
        (vs.foldl (fun pr2 v =>
          (if v < pr2.1 then v else pr2.1, if pr2.2 < v then v else pr2.2)) pr).1 ≤ v ∧
        v ≤ (vs.foldl (fun pr2 v =>
          (if v < pr2.1 then v else pr2.1, if pr2.2 < v then v else pr2.2)) pr).2) := by
  induction vs with
  | nil =>
      intro pr
      exact ⟨le_refl _, le_refl _, fun v hv => absurd hv (List.not_mem_nil v)⟩
  | cons a t ih =>
      intro pr
      rw [List.foldl_cons]
      obtain ⟨i1, i2, i3⟩ := ih
        (if a < pr.1 then a else pr.1, if pr.2 < a then a else pr.2)
      refine ⟨?_, ?_, ?_⟩
      · apply le_trans i1
        simp only
        split_ifs with h
        · exact le_of_lt h
        · exact le_refl _
      · apply le_trans _ i2
        simp only
        split_ifs with h
        · exact le_of_lt h
        · exact le_refl _
      · intro v hv
        rcases List.mem_cons.mp hv with h | h
        · subst h
          constructor
          · apply le_trans i1
            simp only
            split_ifs with h2
            · exact le_refl _
            · exact le_of_not_lt h2
          · apply le_trans _ i2
            simp only
            split_ifs with h2
            · exact le_refl _
            · exact le_of_not_lt h2
        · exact i3 v h

theorem minmaxFold_attained (vs : List ℚ) :
    ∀ pr : ℚ × ℚ,
      ((vs.foldl (fun pr2 v =>
          (if v < pr2.1 then v else pr2.1, if pr2.2 < v then v else pr2.2)) pr).1 = pr.1 ∨
        (vs.foldl (fun pr2 v =>
          (if v < pr2.1 then v else pr2.1, if pr2.2 < v then v else pr2.2)) pr).1 ∈ vs) ∧
      ((vs.foldl (fun pr2 v =>
          (if v < pr2.1 then v else pr2.1, if pr2.2 < v then v else pr2.2)) pr).2 = pr.2 ∨
        (vs.foldl (fun pr2 v =>
          (if v < pr2.1 then v else pr2.1, if pr2.2 < v then v else pr2.2)) pr).2 ∈ vs) := by
  induction vs with
  | nil => intro pr; exact ⟨Or.inl rfl, Or.inl rfl⟩
  | cons a t ih =>
      intro pr
      rw [List.foldl_cons]
      obtain ⟨i1, i2⟩ := ih
        (if a < pr.1 then a else pr.1, if pr.2 < a then a else pr.2)
      constructor
      · rcases i1 with h | h
        · rw [h]
          simp only
          split_ifs with h2
          · exact Or.inr (List.mem_cons_self a t)
          · exact Or.inl rfl
        · exact Or.inr (List.mem_cons.mpr (Or.inr h))
      · rcases i2 with h | h
        · rw [h]
          simp only
          split_ifs with h2
          · exact Or.inr (List.mem_cons_self a t)
          · exact Or.inl rfl
        · exact Or.inr (List.mem_cons.mpr (Or.inr h))

theorem eMinMax_eq_flat (e : List (List ℚ)) :
    eMinMax e = ((List.range e.length).flatMap (fun i =>
        (List.range (e.headD []).length).map (fun il => get2 e i il))).foldl
      (fun pr2 v => (if v < pr2.1 then v else pr2.1, if pr2.2 < v then v else pr2.2))
      (get2 e 0 0, get2 e 0 0) := by
  unfold eMinMax
  generalize (get2 e 0 0, get2 e 0 0) = pr
  generalize List.range e.length = L
  induction L generalizing pr with
  | nil => rfl
  | cons a t ih =>
      rw [List.flatMap_cons, List.foldl_append, List.foldl_cons, List.foldl_map, ih]

theorem get2_shiftAndScale (emin emax : ℚ) (e : List (List ℚ)) (nl : ℕ)
    (hrect : Rect nl e) (i l : ℕ) (hi : i < e.length) (hl : l < nl) :
    get2 (shiftAndScale emin emax e) i l
      = (get2 e i l - emin) * (if emin < emax then 1 / (emax - emin) else 1) := by
  have hrow : (e.getD i []).length = nl := by
    rw [List.getD_eq_getElem _ _ hi]
    exact hrect _ (List.getElem_mem hi)
  have h1 : (shiftAndScale emin emax e).getD i []
      = (e.getD i []).map
          (fun v => (v - emin) * (if emin < emax then 1 / (emax - emin) else 1)) := by
    unfold shiftAndScale
    rw [List.getD_eq_getElem _ _ (by simpa using hi), List.getElem_map,
      List.getD_eq_getElem _ _ hi]
  unfold get2
  rw [h1, List.getD_eq_getElem _ _ (by rw [List.length_map, hrow]; exact hl),
    List.getElem_map]
  have h2 : (e.getD i []).getD l 0 = (e.getD i [])[l] :=
    List.getD_eq_getElem _ _ (by rw [hrow]; exact hl)
  rw [h2]

theorem mem_allVals (e : List (List ℚ)) (v : ℚ) :
    v ∈ (List.range e.length).flatMap (fun i =>
        (List.range (e.headD []).length).map (fun il => get2 e i il)) ↔
      ∃ i, i < e.length ∧ ∃ l, l < (e.headD []).length ∧ get2 e i l = v := by
  simp [List.mem_flatMap, List.mem_map, List.mem_range]

/-- C3: for every non-empty (rectangular) error table, after
`normalizeErrors` every entry `e[i][l]` lies in `[0,1]`; the global minimum
maps to `0` and the global maximum maps to `1` (so at least one entry
equals `0` and one equals `1`) unless all entries are equal, in which case
the linear rescale uses the identity scale (`escale = 1`, so every entry
becomes `e[i][l] - emin`, i.e. `0`). -/
theorem c3_normalize_errors (e : List (List ℚ)) (nl : ℕ) (hne : e ≠ [])
    (hrect : Rect nl e) (hnl : 1 ≤ nl) :
    (∀ i, i < e.length → ∀ l, l < nl →
      0 ≤ get2 (normalizeErrors e) i l ∧ get2 (normalizeErrors e) i l ≤ 1) ∧
    (∃ i, i < e.length ∧ ∃ l, l < nl ∧ get2 (normalizeErrors e) i l = 0) ∧
    ((∃ i, i < e.length ∧ ∃ l, l < nl ∧ ∃ i2, i2 < e.length ∧ ∃ l2, l2 < nl ∧
        get2 e i l ≠ get2 e i2 l2) →
      ∃ i, i < e.length ∧ ∃ l, l < nl ∧ get2 (normalizeErrors e) i l = 1) ∧
    ((∀ i, i < e.length → ∀ l, l < nl → ∀ i2, i2 < e.length → ∀ l2, l2 < nl →
        get2 e i l = get2 e i2 l2) →
      ∀ i, i < e.length → ∀ l, l < nl →
        get2 (normalizeErrors e) i l = get2 e i l - get2 e 0 0) := by
  have hlen0 : 0 < e.length := List.length_pos.mpr hne
  have hhead : (e.headD []).length = nl := rect_headD nl e hne hrect
  have hflat := eMinMax_eq_flat e
  obtain ⟨b1, b2, b3⟩ := minmaxFold_bounds
    ((List.range e.length).flatMap (fun i =>
      (List.range (e.headD []).length).map (fun il => get2 e i il)))
    (get2 e 0 0, get2 e 0 0)
  obtain ⟨a1, a2⟩ := minmaxFold_attained
    ((List.range e.length).flatMap (fun i =>
      (List.range (e.headD []).length).map (fun il => get2 e i il)))
    (get2 e 0 0, get2 e 0 0)
  rw [← hflat] at b1 b2 b3 a1 a2
  have hmem : ∀ i, i < e.length → ∀ l, l < nl → get2 e i l ∈
      (List.range e.length).flatMap (fun i =>
        (List.range (e.headD []).length).map (fun il => get2 e i il)) := by
    intro i hi l hl
    exact (mem_allVals e _).mpr ⟨i, hi, l, by rw [hhead]; exact ⟨hl, rfl⟩⟩
  have hbnd : ∀ i, i < e.length → ∀ l, l < nl →
      (eMinMax e).1 ≤ get2 e i l ∧ get2 e i l ≤ (eMinMax e).2 := by
    intro i hi l hl
    exact b3 _ (hmem i hi l hl)
  have hattmin : ∃ i, i < e.length ∧ ∃ l, l < nl ∧ get2 e i l = (eMinMax e).1 := by
    rcases a1 with h | h
    · exact ⟨0, hlen0, 0, hnl, h.symm⟩
    · obtain ⟨i, hi, l, hl, hv⟩ := (mem_allVals e _).mp h
      exact ⟨i, hi, l, by rw [← hhead]; exact ⟨hl, hv⟩⟩
  have hattmax : ∃ i, i < e.length ∧ ∃ l, l < nl ∧ get2 e i l = (eMinMax e).2 := by
    rcases a2 with h | h
    · exact ⟨0, hlen0, 0, hnl, h.symm⟩
    · obtain ⟨i, hi, l, hl, hv⟩ := (mem_allVals e _).mp h
      exact ⟨i, hi, l, by rw [← hhead]; exact ⟨hl, hv⟩⟩
  have hacc : ∀ i, i < e.length → ∀ l, l < nl →
      get2 (normalizeErrors e) i l
        = (get2 e i l - (eMinMax e).1) *
          (if (eMinMax e).1 < (eMinMax e).2 then 1 / ((eMinMax e).2 - (eMinMax e).1) else 1) := by
    intro i hi l hl
    exact get2_shiftAndScale _ _ e nl hrect i l hi hl
  refine ⟨?_, ?_, ?_, ?_⟩
  · intro i hi l hl
    rw [hacc i hi l hl]
    obtain ⟨hlo, hhi⟩ := hbnd i hi l hl
    by_cases hlt : (eMinMax e).1 < (eMinMax e).2
    · rw [if_pos hlt]
      constructor
      · apply mul_nonneg (by linarith)
        apply div_nonneg (by norm_num)
        linarith
      · rw [mul_one_div, div_le_one (by linarith)]
        linarith
    · rw [if_neg hlt, mul_one]
      have h1 : (eMinMax e).2 ≤ (eMinMax e).1 := le_of_not_lt hlt
      constructor
      · linarith
      · linarith
  · obtain ⟨i, hi, l, hl, hv⟩ := hattmin
    refine ⟨i, hi, l, hl, ?_⟩
    rw [hacc i hi l hl, hv, sub_self, zero_mul]
  · intro hdiff
    obtain ⟨i, hi, l, hl, i2, hi2, l2, hl2, hvne⟩ := hdiff
    have hlt : (eMinMax e).1 < (eMinMax e).2 := by
      rcases lt_or_le (eMinMax e).1 (eMinMax e).2 with h | h
      · exact h
      · exfalso
        obtain ⟨p1, p2⟩ := hbnd i hi l hl
        obtain ⟨q1, q2⟩ := hbnd i2 hi2 l2 hl2
        exact hvne (by linarith)
    obtain ⟨i3, hi3, l3, hl3, hv3⟩ := hattmax
    refine ⟨i3, hi3, l3, hl3, ?_⟩
    rw [hacc i3 hi3 l3 hl3, hv3, if_pos hlt, mul_one_div,
      div_eq_one_iff_eq (by linarith)]
  · intro halleq i hi l hl
    have hminmax : (eMinMax e).2 ≤ (eMinMax e).1 := by
      obtain ⟨i1, hi1, l1, hl1, hv1⟩ := hattmin
      obtain ⟨i2, hi2, l2, hl2, hv2⟩ := hattmax
      have := halleq i2 hi2 l2 hl2 i1 hi1 l1 hl1
      rw [hv1, hv2] at this
      linarith [this.le]
    have hmin00 : (eMinMax e).1 = get2 e 0 0 := by
      obtain ⟨i1, hi1, l1, hl1, hv1⟩ := hattmin
      rw [← hv1]
      exact halleq i1 hi1 l1 hl1 0 hlen0 0 hnl
    rw [hacc i hi l hl, if_neg (by linarith), mul_one, hmin00]

/-- Witness for C3 on a concrete non-empty table. -/
theorem c3_witness :
    ([[ (1 : ℚ), 3], [5, 3]] ≠ ([] : List (List ℚ))) ∧
    (∀ i, i < ([[ (1 : ℚ), 3], [5, 3]]).length → ∀ l, l < 2 →
      0 ≤ get2 (normalizeErrors [[ (1 : ℚ), 3], [5, 3]]) i l ∧
      get2 (normalizeErrors [[ (1 : ℚ), 3], [5, 3]]) i l ≤ 1) :=
  ⟨by simp,
    (c3_normalize_errors [[ (1 : ℚ), 3], [5, 3]] 2 (by simp)
      (by intro r hr; simp at hr; rcases hr with h | h <;> simp [h]) (by norm_num)).1⟩

theorem get2_set_ne (m : List (List ℚ)) (i : ℕ) (row : List ℚ) (i2 l : ℕ)
    (h : i2 ≠ i) : get2 (m.set i row) i2 l = get2 m i2 l := by
  unfold get2
  congr 1
  rw [List.getD_eq_getElem?_getD, List.getD_eq_getElem?_getD,
    List.getElem?_set_ne (Ne.symm h)]

theorem get2_set_self (m : List (List ℚ)) (i : ℕ) (row : List ℚ) (l : ℕ)
    (h : i < m.length) : get2 (m.set i row) i l = row.getD l 0 := by
  unfold get2
  congr 1
  rw [List.getD_eq_getElem?_getD, List.getElem?_set_self h]
  rfl

theorem getD_set_ne_row (m : List (List ℚ)) (i : ℕ) (row : List ℚ) (i2 : ℕ)
    (h : i2 ≠ i) : (m.set i row).getD i2 [] = m.getD i2 [] := by
  rw [List.getD_eq_getElem?_getD, List.getD_eq_getElem?_getD,
    List.getElem?_set_ne (Ne.symm h)]

theorem getD_set_self_row (m : List (List ℚ)) (i : ℕ) (row : List ℚ)
    (h : i < m.length) : (m.set i row).getD i [] = row := by
  rw [List.getD_eq_getElem?_getD, List.getElem?_set_self h]
  rfl

theorem get2_pass1 (p : ℕ) (lmin : ℤ) (nl : ℕ) (f g : List ℚ) (i il : ℕ)
    (hi : i < f.length) (hil : il < nl) :
    get2 (pass1 p lmin nl f g) i il
      = if cellInRange lmin nl f.length i il then
          errF p (f.getD i 0) (g.getD ((i : ℤ) + il + lmin).toNat 0)
        else 0 := by
  have h1 : (pass1 p lmin nl f g).getD i []
      = (List.range nl).map (fun il =>
          if cellInRange lmin nl f.length i il then
            errF p (f.getD i 0) (g.getD ((i : ℤ) + il + lmin).toNat 0)
          else 0) := by
    unfold pass1
    rw [List.getD_eq_getElem _ _ (by simpa using hi), List.getElem_map,
      List.getElem_range]
  unfold get2
  rw [h1, List.getD_eq_getElem _ _ (by simpa using hil), List.getElem_map,
    List.getElem_range]

theorem fillRow_in (extrap : ErrorExtrapolation) (p : ℕ) (lmin : ℤ) (nl : ℕ)
    (f g : List ℚ) (tbl : List (List ℚ)) (i il : ℕ) (hil : il < nl)
    (hin : cellInRange lmin nl f.length i il) :
    (fillRow extrap p lmin nl f g tbl i).getD il 0 = get2 tbl i il := by
  unfold fillRow
  rw [List.getD_eq_getElem _ _ (by simpa using hil), List.getElem_map,
    List.getElem_range, if_pos hin]

theorem cellInRange_lt_nl (lmin : ℤ) (nl n1 i il : ℕ)
    (h : cellInRange lmin nl n1 i il) : il < nl := by
  obtain ⟨_, h2⟩ := h
  unfold ilhi at h2
  omega

theorem donor_cellInRange (lmin : ℤ) (nl n1 : ℕ) (refl : Bool) (i il : ℕ)
    (hi : i < n1) (hil : il < nl) (hout : ¬cellInRange lmin nl n1 i il)
    (hk : 0 ≤ donorK lmin n1 refl i il ∧ donorK lmin n1 refl i il < (n1 : ℤ)) :
    cellInRange lmin nl n1 (donorK lmin n1 refl i il).toNat il := by
  simp only [cellInRange, illo, ilhi, donorK] at *
  cases refl
  all_goals
    simp only [Bool.false_eq_true, if_false, if_true] at hk ⊢
    split_ifs at hk ⊢ with h1
    all_goals constructor <;> omega

theorem fillRow_out_nearest (p : ℕ) (lmin : ℤ) (nl : ℕ) (f g : List ℚ)
    (tbl : List (List ℚ)) (i il : ℕ) (hil : il < nl)
    (hout : ¬cellInRange lmin nl f.length i il) :
    (fillRow ErrorExtrapolation.nearest p lmin nl f g tbl i).getD il 0
      = if 0 ≤ donorK lmin f.length false i il ∧
          donorK lmin f.length false i il < (f.length : ℤ)
        then get2 tbl (donorK lmin f.length false i il).toNat il
        else emaxOf p lmin nl f g := by
  unfold fillRow
  rw [List.getD_eq_getElem _ _ (by simpa using hil), List.getElem_map,
    List.getElem_range, if_neg hout]

theorem fillRow_out_reflect (p : ℕ) (lmin : ℤ) (nl : ℕ) (f g : List ℚ)
    (tbl : List (List ℚ)) (i il : ℕ) (hil : il < nl)
    (hout : ¬cellInRange lmin nl f.length i il) :
    (fillRow ErrorExtrapolation.reflect p lmin nl f g tbl i).getD il 0
      = if 0 ≤ donorK lmin f.length true i il ∧
          donorK lmin f.length true i il < (f.length : ℤ)
        then get2 tbl (donorK lmin f.length true i il).toNat il
        else emaxOf p lmin nl f g := by
  unfold fillRow
  rw [List.getD_eq_getElem _ _ (by simpa using hil), List.getElem_map,
    List.getElem_range, if_neg hout]

theorem fillRow_out_average (p : ℕ) (lmin : ℤ) (nl : ℕ) (f g : List ℚ)
    (tbl : List (List ℚ)) (i il : ℕ) (hil : il < nl)
    (hout : ¬cellInRange lmin nl f.length i il) :
    (fillRow ErrorExtrapolation.average p lmin nl f g tbl i).getD il 0
      = if 0 < navgOf lmin f.length il then eavgOf p lmin f g il
        else emaxOf p lmin nl f g := by
  unfold fillRow
  rw [List.getD_eq_getElem _ _ (by simpa using hil), List.getElem_map,
    List.getElem_range, if_neg hout]

theorem fillRow_congr (extrap : ErrorExtrapolation) (p : ℕ) (lmin : ℤ)
    (nl : ℕ) (f g : List ℚ) (tbl : List (List ℚ)) (i : ℕ) (hi : i < f.length)
    (hINV : ∀ k il2, cellInRange lmin nl f.length k il2 →
      get2 tbl k il2 = get2 (pass1 p lmin nl f g) k il2) :
    fillRow extrap p lmin nl f g tbl i
      = fillRow extrap p lmin nl f g (pass1 p lmin nl f g) i := by
  unfold fillRow
  apply List.map_congr_left
  intro il hilmem
  rw [List.mem_range] at hilmem
  by_cases hin : cellInRange lmin nl f.length i il
  · rw [if_pos hin, if_pos hin, hINV i il hin]
  · rw [if_neg hin, if_neg hin]
    cases extrap
    · simp only
      split_ifs with hk
      · exact hINV _ il
          (donor_cellInRange lmin nl f.length false i il hi hilmem hin hk)
      · rfl
    · rfl
    · simp only
      split_ifs with hk
      · exact hINV _ il
          (donor_cellInRange lmin nl f.length true i il hi hilmem hin hk)
      · rfl

theorem computeErrors_fold (extrap : ErrorExtrapolation) (p : ℕ) (lmin : ℤ)
    (nl : ℕ) (f g : List ℚ) :
    ∀ (L : List ℕ) (tbl : List (List ℚ)), tbl.length = f.length →
      (∀ k il2, cellInRange lmin nl f.length k il2 →
        get2 tbl k il2 = get2 (pass1 p lmin nl f g) k il2) →
      (L.foldl (fun t i2 => t.set i2 (fillRow extrap p lmin nl f g t i2)) tbl).length
          = f.length ∧
      (∀ k il2, cellInRange lmin nl f.length k il2 →
        get2 (L.foldl (fun t i2 => t.set i2 (fillRow extrap p lmin nl f g t i2)) tbl) k il2
          = get2 (pass1 p lmin nl f g) k il2) ∧
      (∀ k, k ∉ L →
        (L.foldl (fun t i2 => t.set i2 (fillRow extrap p lmin nl f g t i2)) tbl).getD k []
          = tbl.getD k []) ∧
      (∀ i2 ∈ L, i2 < f.length →
        (L.foldl (fun t i2 => t.set i2 (fillRow extrap p lmin nl f g t i2)) tbl).getD i2 []
          = fillRow extrap p lmin nl f g (pass1 p lmin nl f g) i2) := by
  intro L
  induction L with
  | nil =>
      intro tbl hlen hINV
      exact ⟨hlen, hINV, fun k _ => rfl, fun i2 h => absurd h (List.not_mem_nil i2)⟩
  | cons a t ih =>
      intro tbl hlen hINV
      simp only [List.foldl_cons]
      set tbl2 := tbl.set a (fillRow extrap p lmin nl f g tbl a) with htbl2
      have hlen2 : tbl2.length = f.length := by rw [htbl2, List.length_set]; exact hlen
      have hINV2 : ∀ k il2, cellInRange lmin nl f.length k il2 →
          get2 tbl2 k il2 = get2 (pass1 p lmin nl f g) k il2 := by
        intro k il2 hcir
        by_cases hka : k = a
        · subst hka
          by_cases hklen : k < tbl.length
          · rw [htbl2, get2_set_self _ _ _ _ hklen,
              fillRow_in extrap p lmin nl f g tbl k il2
                (cellInRange_lt_nl _ _ _ _ _ hcir) hcir]
            exact hINV k il2 hcir
          · rw [htbl2, List.set_eq_of_length_le (by omega)]
            exact hINV k il2 hcir
        · rw [htbl2, get2_set_ne _ _ _ _ _ hka]
          exact hINV k il2 hcir
      obtain ⟨j1, j2, j3, j4⟩ := ih tbl2 hlen2 hINV2
      refine ⟨j1, j2, ?_, ?_⟩
      · intro k hk
        have hka : k ≠ a := fun h => hk (by rw [h]; exact List.mem_cons_self a t)
        have hkt : k ∉ t := fun h => hk (List.mem_cons.mpr (Or.inr h))
        rw [j3 k hkt, htbl2, getD_set_ne_row _ _ _ _ hka]
      · intro i2 hmem hi2
        rcases List.mem_cons.mp hmem with h | h
        · subst h
          by_cases hit : i2 ∈ t
          · exact j4 i2 hit hi2
          · rw [j3 i2 hit, htbl2, getD_set_self_row _ _ _ (by omega)]
            exact fillRow_congr extrap p lmin nl f g tbl i2 hi2 hINV
        · exact j4 i2 h hi2

theorem computeErrors_row (extrap : ErrorExtrapolation) (p : ℕ) (lmin : ℤ)
    (nl : ℕ) (f g : List ℚ) (i : ℕ) (hi : i < f.length) :
    (computeErrors extrap p lmin nl f g).getD i []
      = fillRow extrap p lmin nl f g (pass1 p lmin nl f g) i := by
  unfold computeErrors
  obtain ⟨_, _, _, j4⟩ := computeErrors_fold extrap p lmin nl f g
    (List.range f.length) (pass1 p lmin nl f g) (pass1_length _ _ _ _ _)
    (fun _ _ _ => rfl)
  exact j4 i (List.mem_range.mpr hi) hi

theorem maxFold_ub (vs : List ℚ) :
    ∀ m : ℚ, m ≤ vs.foldl (fun m2 v => if m2 < v then v else m2) m ∧
      ∀ v ∈ vs, v ≤ vs.foldl (fun m2 v => if m2 < v then v else m2) m := by
  induction vs with
  | nil => intro m; exact ⟨le_refl _, fun v hv => absurd hv (List.not_mem_nil v)⟩
  | cons a t ih =>
      intro m
      rw [List.foldl_cons]
      obtain ⟨i1, i2⟩ := ih (if m < a then a else m)
      constructor
      · apply le_trans _ i1
        split_ifs with h
        · exact le_of_lt h
        · exact le_refl _
      · intro v hv
        rcases List.mem_cons.mp hv with h | h
        · subst h
          apply le_trans _ i1
          split_ifs with h2
          · exact le_refl _
          · exact le_of_not_lt h2
        · exact i2 v h

theorem maxFold_attained (vs : List ℚ) :
    ∀ m : ℚ, vs.foldl (fun m2 v => if m2 < v then v else m2) m = m ∨
      vs.foldl (fun m2 v => if m2 < v then v else m2) m ∈ vs := by
  induction vs with
  | nil => intro m; exact Or.inl rfl
  | cons a t ih =>
      intro m
      rw [List.foldl_cons]
      rcases ih (if m < a then a else m) with h | h
      · rw [h]
        split_ifs with h2
        · exact Or.inr (List.mem_cons_self a t)
        · exact Or.inl rfl
      · exact Or.inr (List.mem_cons.mpr (Or.inr h))

theorem emaxOf_flat_aux (p : ℕ) (lmin : ℤ) (nl : ℕ) (f g : List ℚ) :
    ∀ (L : List ℕ) (m : ℚ),
      L.foldl (fun m1 i =>
        (validILs lmin nl f.length i).foldl (fun m2 (il : ℕ) =>
          let ei := errF p (f.getD i 0) (g.getD ((i : ℤ) + il + lmin).toNat 0)
          if m2 < ei then ei else m2) m1) m
      = (L.flatMap (fun i =>
          (validILs lmin nl f.length i).map (fun il : ℕ =>
            errF p (f.getD i 0) (g.getD ((i : ℤ) + il + lmin).toNat 0)))).foldl
        (fun m2 v => if m2 < v then v else m2) m := by
  intro L
  induction L with
  | nil => intro m; rfl
  | cons a t ih =>
      intro m
      rw [List.foldl_cons, List.flatMap_cons, List.foldl_append, List.foldl_map, ih]

theorem emaxOf_eq_flat (p : ℕ) (lmin : ℤ) (nl : ℕ) (f g : List ℚ) :
    emaxOf p lmin nl f g
      = ((List.range f.length).flatMap (fun i =>
          (validILs lmin nl f.length i).map (fun il : ℕ =>
            errF p (f.getD i 0) (g.getD ((i : ℤ) + il + lmin).toNat 0)))).foldl
        (fun m2 v => if m2 < v then v else m2) 0 :=
  emaxOf_flat_aux p lmin nl f g (List.range f.length) 0

theorem mem_validILs (lmin : ℤ) (nl n1 i il : ℕ) :
    il ∈ validILs lmin nl n1 i ↔ cellInRange lmin nl n1 i il := by
  unfold validILs cellInRange illo ilhi
  rw [List.mem_range'_1]
  omega

theorem mem_validIs (lmin : ℤ) (nl n1 il : ℕ) (hil : il < nl) (i : ℕ) :
    i ∈ validIs lmin n1 il ↔ (i < n1 ∧ cellInRange lmin nl n1 i il) := by
  unfold validIs cellInRange illo ilhi
  rw [List.mem_range'_1]
  omega

/-- C4: in `computeErrors`, for every cell `(i,l)` whose target index
`j = i + l + lagMin` falls outside `[0, len(g))` (the source documents and
assumes `len(g) = n1 = len(f)`): under `Nearest` the cell receives the
error of the nearest in-range sample index `k` at the same lag, falling
back to `emax` (the maximum over all valid errors, `0` when there are
none) when `k` is out of range; under `Reflect` the donor index is the
point reflection `k1 = k + (k - i)` of that nearest index, with the same
`emax` fallback when `k1` is out of `[0, len(f))`; under `Average` the cell
receives the arithmetic mean of all valid errors computed for that lag
(running sum divided by count), or `emax` if the lag has no valid
entries. -/
theorem c4_extrapolation_policies (p : ℕ) (lmin : ℤ) (nl : ℕ) (f g : List ℚ)
    (hlen : g.length = f.length) :
    (∀ (i il : ℕ), i < f.length → il < nl →
      ((i : ℤ) + il + lmin < 0 ∨ (g.length : ℤ) ≤ (i : ℤ) + il + lmin) →
      (get2 (computeErrors ErrorExtrapolation.nearest p lmin nl f g) i il
        = (if 0 ≤ donorK lmin f.length false i il ∧
              donorK lmin f.length false i il < (f.length : ℤ)
           then errF p (f.getD (donorK lmin f.length false i il).toNat 0)
                  (g.getD (donorK lmin f.length false i il + il + lmin).toNat 0)
           else emaxOf p lmin nl f g)) ∧
      (get2 (computeErrors ErrorExtrapolation.reflect p lmin nl f g) i il
        = (if 0 ≤ donorK lmin f.length true i il ∧
              donorK lmin f.length true i il < (f.length : ℤ)
           then errF p (f.getD (donorK lmin f.length true i il).toNat 0)
                  (g.getD (donorK lmin f.length true i il + il + lmin).toNat 0)
           else emaxOf p lmin nl f g)) ∧
      (get2 (computeErrors ErrorExtrapolation.average p lmin nl f g) i il
        = (if 0 < navgOf lmin f.length il
           then eavgSum p lmin f g il / (navgOf lmin f.length il : ℚ)
           else emaxOf p lmin nl f g))) ∧
    (∀ (i2 il2 : ℕ), i2 < f.length → cellInRange lmin nl f.length i2 il2 →
      errF p (f.getD i2 0) (g.getD ((i2 : ℤ) + il2 + lmin).toNat 0)
        ≤ emaxOf p lmin nl f g) ∧
    (emaxOf p lmin nl f g = 0 ∨ ∃ i2 : ℕ, i2 < f.length ∧ ∃ il2 : ℕ,
      cellInRange lmin nl f.length i2 il2 ∧
      errF p (f.getD i2 0) (g.getD ((i2 : ℤ) + il2 + lmin).toNat 0)
        = emaxOf p lmin nl f g) ∧
    (∀ (il : ℕ), il < nl → ∀ (i : ℕ), i ∈ validIs lmin f.length il ↔
      (i < f.length ∧ cellInRange lmin nl f.length i il)) := by
  have hmemflat : ∀ v : ℚ, v ∈ (List.range f.length).flatMap (fun i =>
      (validILs lmin nl f.length i).map (fun il : ℕ =>
        errF p (f.getD i 0) (g.getD ((i : ℤ) + il + lmin).toNat 0))) ↔
      ∃ i2 : ℕ, i2 < f.length ∧ ∃ il2 : ℕ, cellInRange lmin nl f.length i2 il2 ∧
        errF p (f.getD i2 0) (g.getD ((i2 : ℤ) + il2 + lmin).toNat 0) = v := by
    intro v
    rw [List.mem_flatMap]
    constructor
    · rintro ⟨i2, hi2, hv⟩
      rw [List.mem_map] at hv
      obtain ⟨il2, hil2, hv2⟩ := hv
      exact ⟨i2, List.mem_range.mp hi2, il2,
        (mem_validILs lmin nl f.length i2 il2).mp hil2, hv2⟩
    · rintro ⟨i2, hi2, il2, hcir, hv⟩
      exact ⟨i2, List.mem_range.mpr hi2,
        List.mem_map.mpr ⟨il2, (mem_validILs lmin nl f.length i2 il2).mpr hcir, hv⟩⟩
  refine ⟨?_, ?_, ?_, ?_⟩
  · intro i il hi hil hout
    have hnotin : ¬cellInRange lmin nl f.length i il := by
      rw [hlen] at hout
      unfold cellInRange illo ilhi
      omega
    have hrowacc : ∀ extrap, get2 (computeErrors extrap p lmin nl f g) i il
        = (fillRow extrap p lmin nl f g (pass1 p lmin nl f g) i).getD il 0 := by
      intro extrap
      unfold get2
      rw [computeErrors_row extrap p lmin nl f g i hi]
    have hdonor : ∀ refl : Bool,
        (0 ≤ donorK lmin f.length refl i il ∧
          donorK lmin f.length refl i il < (f.length : ℤ)) →
        get2 (pass1 p lmin nl f g) (donorK lmin f.length refl i il).toNat il
          = errF p (f.getD (donorK lmin f.length refl i il).toNat 0)
              (g.getD (donorK lmin f.length refl i il + il + lmin).toNat 0) := by
      intro refl hk
      have hcir := donor_cellInRange lmin nl f.length refl i il hi hil hnotin hk
      rw [get2_pass1 p lmin nl f g _ il (by omega) hil, if_pos hcir]
      have hcast : ((donorK lmin f.length refl i il).toNat : ℤ)
          = donorK lmin f.length refl i il := Int.toNat_of_nonneg hk.1
      rw [hcast]
    refine ⟨?_, ?_, ?_⟩
    · rw [hrowacc, fillRow_out_nearest p lmin nl f g _ i il hil hnotin]
      split_ifs with hk
      · exact hdonor false hk
      · rfl
    · rw [hrowacc, fillRow_out_reflect p lmin nl f g _ i il hil hnotin]
      split_ifs with hk
      · exact hdonor true hk
      · rfl
    · rw [hrowacc, fillRow_out_average p lmin nl f g _ i il hil hnotin]
      rfl
  · intro i2 il2 hi2 hcir
    rw [emaxOf_eq_flat]
    obtain ⟨_, hub⟩ := maxFold_ub ((List.range f.length).flatMap (fun i =>
      (validILs lmin nl f.length i).map (fun il : ℕ =>
        errF p (f.getD i 0) (g.getD ((i : ℤ) + il + lmin).toNat 0)))) 0
    exact hub _ ((hmemflat _).mpr ⟨i2, hi2, il2, hcir, rfl⟩)
  · rw [emaxOf_eq_flat]
    rcases maxFold_attained ((List.range f.length).flatMap (fun i =>
      (validILs lmin nl f.length i).map (fun il : ℕ =>
        errF p (f.getD i 0) (g.getD ((i : ℤ) + il + lmin).toNat 0)))) 0 with h | h
    · exact Or.inl h
    · exact Or.inr ((hmemflat _).mp h)
  · intro il hil i
    exact mem_validIs lmin nl f.length il hil i

/-- Witness for C4 on concrete sequences: `f = [1,2,3]`, `g = [3,1,2]`,
`lagMin = -2`, `nl = 5`; the cell `(0,0)` has `j = -2` out of range. -/
theorem c4_witness :
    ([3, 1, 2] : List ℚ).length = ([1, 2, 3] : List ℚ).length ∧
    (0 : ℕ) < ([1, 2, 3] : List ℚ).length ∧ (0 : ℕ) < 5 ∧
    ((0 : ℤ) + (0 : ℕ) + (-2) < 0 ∨
      ((([3, 1, 2] : List ℚ).length : ℤ)) ≤ (0 : ℤ) + (0 : ℕ) + (-2)) ∧
    get2 (computeErrors ErrorExtrapolation.nearest 2 (-2) 5 [1, 2, 3] [3, 1, 2]) 0 0
      = (if 0 ≤ donorK (-2) ([1, 2, 3] : List ℚ).length false 0 0 ∧
            donorK (-2) ([1, 2, 3] : List ℚ).length false 0 0
              < ((([1, 2, 3] : List ℚ).length : ℕ) : ℤ)
         then errF 2 (([1, 2, 3] : List ℚ).getD
                (donorK (-2) ([1, 2, 3] : List ℚ).length false 0 0).toNat 0)
                (([3, 1, 2] : List ℚ).getD
                  (donorK (-2) ([1, 2, 3] : List ℚ).length false 0 0 + 0 + (-2)).toNat 0)
         else emaxOf 2 (-2) 5 [1, 2, 3] [3, 1, 2]) :=
  ⟨rfl, by norm_num, by norm_num, by norm_num,
    (((c4_extrapolation_policies 2 (-2) 5 [1, 2, 3] [3, 1, 2] rfl).1
      0 0 (by norm_num) (by norm_num) (by norm_num)).1)⟩

theorem getDq_set_ne (l : List ℚ) (i : ℕ) (v : ℚ) (j : ℕ) (h : j ≠ i) :
    (l.set i v).getD j 0 = l.getD j 0 := by
  rw [List.getD_eq_getElem?_getD, List.getD_eq_getElem?_getD,
    List.getElem?_set_ne (Ne.symm h)]

theorem getDq_set_self (l : List ℚ) (i : ℕ) (v : ℚ) (h : i < l.length) :
    (l.set i v).getD i 0 = v := by
  rw [List.getD_eq_getElem?_getD, List.getElem?_set_self h]
  rfl

theorem list_eq_of_getD (l1 l2 : List ℚ) (hlen : l1.length = l2.length)
    (h : ∀ j, j < l1.length → l1.getD j 0 = l2.getD j 0) : l1 = l2 := by
  apply List.ext_getElem hlen
  intro j h1 h2
  have h3 := h j h1
  rwa [List.getD_eq_getElem _ _ h1, List.getD_eq_getElem _ _ h2] at h3

theorem eiSweep_eq (a bb : ℚ) (x : List ℚ) :
    ∀ (m s : ℕ) (zA yD : List ℚ) (yi : ℚ),
      zA.length = x.length → yD.length = x.length →
      (∀ j, s ≤ j → zA.getD j 0 = x.getD j 0) →
      (∀ j, j < s → zA.getD j 0 = yD.getD j 0) →
      ((List.range' s m).foldl (eiStepA a bb) (zA, yi)).2
        = ((List.range' s m).foldl (eiStepD a bb x) (yD, yi)).2 ∧
      ((List.range' s m).foldl (eiStepA a bb) (zA, yi)).1.length = x.length ∧
      ((List.range' s m).foldl (eiStepD a bb x) (yD, yi)).1.length = x.length ∧
      (∀ j, s + m ≤ j →
        ((List.range' s m).foldl (eiStepA a bb) (zA, yi)).1.getD j 0 = x.getD j 0) ∧
      (∀ j, j < s + m →
        ((List.range' s m).foldl (eiStepA a bb) (zA, yi)).1.getD j 0
          = ((List.range' s m).foldl (eiStepD a bb x) (yD, yi)).1.getD j 0) := by
  intro m
  induction m with
  | zero =>
      intro s zA yD yi h1 h2 h3 h4
      exact ⟨rfl, h1, h2, fun j hj => h3 j (by omega), fun j hj => h4 j (by omega)⟩
  | succ m ih =>
      intro s zA yD yi h1 h2 h3 h4
      rw [List.range'_succ, List.foldl_cons, List.foldl_cons]
      have hread : zA.getD s 0 = x.getD s 0 := h3 s (le_refl s)
      have hstep : eiStepA a bb (zA, yi) s = (zA.set s (a * yi + bb * x.getD s 0),
          a * yi + bb * x.getD s 0) := by
        simp only [eiStepA, hread]
      have hstepD : eiStepD a bb x (yD, yi) s = (yD.set s (a * yi + bb * x.getD s 0),
          a * yi + bb * x.getD s 0) := by
        simp only [eiStepD]
      rw [hstep, hstepD]
      have h1b : (zA.set s (a * yi + bb * x.getD s 0)).length = x.length := by
        rw [List.length_set]; exact h1
      have h2b : (yD.set s (a * yi + bb * x.getD s 0)).length = x.length := by
        rw [List.length_set]; exact h2
      have h3b : ∀ j, s + 1 ≤ j →
          (zA.set s (a * yi + bb * x.getD s 0)).getD j 0 = x.getD j 0 := by
        intro j hj
        rw [getDq_set_ne _ _ _ _ (by omega)]
        exact h3 j (by omega)
      have h4b : ∀ j, j < s + 1 →
          (zA.set s (a * yi + bb * x.getD s 0)).getD j 0
            = (yD.set s (a * yi + bb * x.getD s 0)).getD j 0 := by
        intro j hj
        by_cases hjs : j = s
        · subst hjs
          by_cases hjl : j < x.length
          · rw [getDq_set_self _ _ _ (by omega), getDq_set_self _ _ _ (by omega)]
          · rw [List.getD_eq_getElem?_getD, List.getElem?_eq_none (by
                rw [List.length_set]; omega),
              List.getD_eq_getElem?_getD, List.getElem?_eq_none (by
                rw [List.length_set]; omega)]
        · rw [getDq_set_ne _ _ _ _ hjs, getDq_set_ne _ _ _ _ hjs]
          exact h4 j (by omega)
      obtain ⟨c1, c2, c3, c4, c5⟩ := ih (s + 1)
        (zA.set s (a * yi + bb * x.getD s 0))
        (yD.set s (a * yi + bb * x.getD s 0))
        (a * yi + bb * x.getD s 0) h1b h2b h3b h4b
      exact ⟨c1, c2, c3, fun j hj => c4 j (by omega), fun j hj => c5 j (by omega)⟩

theorem eoCopy_sweep (c : ℚ) (x : List ℚ) :
    ∀ (m s : ℕ) (zA yD : List ℚ),
      zA.length = x.length → yD.length = x.length →
      (∀ j, s ≤ j → zA.getD j 0 = x.getD j 0) →
      (∀ j, j < s → zA.getD j 0 = yD.getD j 0) →
      ((List.range' s m).foldl (eoCopyStepA c) zA).length = x.length ∧
      ((List.range' s m).foldl (eoCopyStepD c x) yD).length = x.length ∧
      (∀ j, s + m ≤ j →
        ((List.range' s m).foldl (eoCopyStepA c) zA).getD j 0 = x.getD j 0) ∧
      (∀ j, j < s + m →
        ((List.range' s m).foldl (eoCopyStepA c) zA).getD j 0
          = ((List.range' s m).foldl (eoCopyStepD c x) yD).getD j 0) := by
  intro m
  induction m with
  | zero =>
      intro s zA yD h1 h2 h3 h4
      exact ⟨h1, h2, fun j hj => h3 j (by omega), fun j hj => h4 j (by omega)⟩
  | succ m ih =>
      intro s zA yD h1 h2 h3 h4
      rw [List.range'_succ, List.foldl_cons, List.foldl_cons]
      have hread : zA.getD s 0 = x.getD s 0 := h3 s (le_refl s)
      have hstep : eoCopyStepA c zA s = zA.set s (x.getD s 0 * c) := by
        simp only [eoCopyStepA, hread]
      have hstepD : eoCopyStepD c x yD s = yD.set s (x.getD s 0 * c) := by
        simp only [eoCopyStepD]
      rw [hstep, hstepD]
      have h1b : (zA.set s (x.getD s 0 * c)).length = x.length := by
        rw [List.length_set]; exact h1
      have h2b : (yD.set s (x.getD s 0 * c)).length = x.length := by
        rw [List.length_set]; exact h2
      have h3b : ∀ j, s + 1 ≤ j →
          (zA.set s (x.getD s 0 * c)).getD j 0 = x.getD j 0 := by
        intro j hj
        rw [getDq_set_ne _ _ _ _ (by omega)]
        exact h3 j (by omega)
      have h4b : ∀ j, j < s + 1 →
          (zA.set s (x.getD s 0 * c)).getD j 0
            = (yD.set s (x.getD s 0 * c)).getD j 0 := by
        intro j hj
        by_cases hjs : j = s
        · subst hjs
          by_cases hjl : j < x.length
          · rw [getDq_set_self _ _ _ (by omega), getDq_set_self _ _ _ (by omega)]
          · rw [List.getD_eq_getElem?_getD, List.getElem?_eq_none (by
                rw [List.length_set]; omega),
              List.getD_eq_getElem?_getD, List.getElem?_eq_none (by
                rw [List.length_set]; omega)]
        · rw [getDq_set_ne _ _ _ _ hjs, getDq_set_ne _ _ _ _ hjs]
          exact h4 j (by omega)
      obtain ⟨c1, c2, c3, c4⟩ := ih (s + 1) (zA.set s (x.getD s 0 * c))
        (yD.set s (x.getD s 0 * c)) h1b h2b h3b h4b
      exact ⟨c1, c2, fun j hj => c3 j (by omega), fun j hj => c4 j (by omega)⟩

theorem smooth1Ei_alias (zs : Bool) (a : ℚ) (x y0buf : List ℚ)
    (hlen : y0buf.length = x.length) (hcase : x.length ≠ 1 ∨ zs = true) :
    smooth1EiAliased zs a x = smooth1EiDistinct zs a x y0buf := by
  by_cases hn0 : x.length = 0
  · have hx : x = [] := List.length_eq_zero.mp hn0
    have hy : y0buf = [] := List.length_eq_zero.mp (by rw [hlen, hn0])
    subst hx
    subst hy
    rfl
  · have hpos : 0 < x.length := Nat.pos_of_ne_zero hn0
    simp only [smooth1EiAliased, smooth1EiDistinct]
    set sx := if zs then (1 : ℚ) else 1 - a with hsx
    set y0 := sx * x.getD 0 0 with hy0
    obtain ⟨e1, e2, e3, e4, e5⟩ := eiSweep_eq a (1 - a) x (x.length - 1 - 1) 1
      (x.set 0 y0) (y0buf.set 0 y0) y0
      (by rw [List.length_set])
      (by rw [List.length_set]; exact hlen)
      (fun j hj => getDq_set_ne _ _ _ _ (by omega))
      (fun j hj => by
        have hj0 : j = 0 := by omega
        subst hj0
        rw [getDq_set_self _ _ _ hpos, getDq_set_self _ _ _ (by rw [hlen]; exact hpos)])
    have hvlread : ((List.range' 1 (x.length - 1 - 1)).foldl (eiStepA a (1 - a))
        (x.set 0 y0, y0)).1.getD (x.length - 1) 0 = x.getD (x.length - 1) 0 := by
      rcases Nat.lt_or_ge x.length 2 with h2 | h2
      · have h1 : x.length = 1 := by omega
        have hzs : zs = true := by
          rcases hcase with hc | hc
          · exact absurd h1 hc
          · exact hc
        have hnil : (List.range' 1 (x.length - 1 - 1)) = [] := by
          rw [h1]
          rfl
        have h0 : x.length - 1 = 0 := by omega
        rw [hnil, List.foldl_nil, h0, getDq_set_self _ _ _ hpos, hy0, hsx, hzs]
        simp
      · exact e4 _ (by omega)
    have hvleq :
        a / (1 + a) * ((List.range' 1 (x.length - 1 - 1)).foldl (eiStepA a (1 - a))
            (x.set 0 y0, y0)).2
          + sx / (1 + a) * ((List.range' 1 (x.length - 1 - 1)).foldl (eiStepA a (1 - a))
            (x.set 0 y0, y0)).1.getD (x.length - 1) 0
        = a / (1 + a) * ((List.range' 1 (x.length - 1 - 1)).foldl (eiStepD a (1 - a) x)
            (y0buf.set 0 y0, y0)).2
          + sx / (1 + a) * x.getD (x.length - 1) 0 := by
      rw [e1, hvlread]
    have hpair :
        (((List.range' 1 (x.length - 1 - 1)).foldl (eiStepA a (1 - a))
            (x.set 0 y0, y0)).1.set (x.length - 1)
          (a / (1 + a) * ((List.range' 1 (x.length - 1 - 1)).foldl (eiStepA a (1 - a))
              (x.set 0 y0, y0)).2
            + sx / (1 + a) * ((List.range' 1 (x.length - 1 - 1)).foldl (eiStepA a (1 - a))
              (x.set 0 y0, y0)).1.getD (x.length - 1) 0),
          a / (1 + a) * ((List.range' 1 (x.length - 1 - 1)).foldl (eiStepA a (1 - a))
              (x.set 0 y0, y0)).2
            + sx / (1 + a) * ((List.range' 1 (x.length - 1 - 1)).foldl (eiStepA a (1 - a))
              (x.set 0 y0, y0)).1.getD (x.length - 1) 0)
        = (((List.range' 1 (x.length - 1 - 1)).foldl (eiStepD a (1 - a) x)
            (y0buf.set 0 y0, y0)).1.set (x.length - 1)
          (a / (1 + a) * ((List.range' 1 (x.length - 1 - 1)).foldl (eiStepD a (1 - a) x)
              (y0buf.set 0 y0, y0)).2
            + sx / (1 + a) * x.getD (x.length - 1) 0),
          a / (1 + a) * ((List.range' 1 (x.length - 1 - 1)).foldl (eiStepD a (1 - a) x)
              (y0buf.set 0 y0, y0)).2
            + sx / (1 + a) * x.getD (x.length - 1) 0) := by
      refine Prod.ext ?_ hvleq
      simp only
      rw [hvleq]
      apply list_eq_of_getD
      · rw [List.length_set, List.length_set, e2, e3]
      · intro j hj
        rw [List.length_set, e2] at hj
        by_cases hjl : j = x.length - 1
        · subst hjl
          rw [getDq_set_self _ _ _ (by rw [e2]; omega),
            getDq_set_self _ _ _ (by rw [e3]; omega)]
        · rw [getDq_set_ne _ _ _ _ hjl, getDq_set_ne _ _ _ _ hjl]
          exact e5 j (by omega)
    rw [hpair]

theorem smooth1Eo_alias (zs : Bool) (a : ℚ) (kRaw : ℤ) (x y0buf : List ℚ)
    (hlen : y0buf.length = x.length) :
    smooth1EoAliased zs a kRaw x = smooth1EoDistinct zs a kRaw x y0buf := by
  simp only [smooth1EoAliased, smooth1EoDistinct, List.range_eq_range']
  obtain ⟨c1, c2, c3, c4⟩ := eoCopy_sweep ((1 - a) * (1 - a)) x x.length 0 x y0buf
    rfl hlen (fun j _ => rfl) (fun j hj => absurd hj (Nat.not_lt_zero j))
  congr 1
  apply list_eq_of_getD
  · rw [c1, c2]
  · intro j hj
    rw [c1] at hj
    exact c4 j (by omega)

/-- C7 (amended): the output of `RecursiveExponentialFilter::apply`
(`smooth1`) is insensitive to whether the caller aliases input and output
storage for the output-anchored variant on every input, for `a = 0`, and
for the input-anchored variant whenever the input length is not `1` or the
zero-slope flag is set; the remaining case — input-anchored,
non-zero-slope, single-sample input — reads `x[0]` after overwriting it
and is not alias-safe (see the counterexample). -/
theorem c7_amended_alias_safety (ei zs : Bool) (a : ℚ) (kRaw : ℤ)
    (x y0buf : List ℚ) (hlen : y0buf.length = x.length)
    (hcase : x.length ≠ 1 ∨ zs = true ∨ ei = false ∨ a = 0) :
    smooth1Aliased ei zs a kRaw x = smooth1Distinct ei zs a kRaw x y0buf := by
  unfold smooth1Aliased smooth1Distinct
  by_cases ha : a = 0
  · rw [if_pos ha, if_pos ha]
  · rw [if_neg ha, if_neg ha]
    cases ei
    · simp only [Bool.false_eq_true, if_false]
      exact smooth1Eo_alias zs a kRaw x y0buf hlen
    · simp only [if_true]
      apply smooth1Ei_alias zs a x y0buf hlen
      rcases hcase with h | h | h | h
      · exact Or.inl h
      · exact Or.inr h
      · exact absurd h (by simp)
      · exact absurd h ha

/-- Witness for the amended C7 on a two-sample input. -/
theorem c7_witness :
    (([9, 9] : List ℚ).length = ([1, 2] : List ℚ).length) ∧
    (([1, 2] : List ℚ).length ≠ 1) ∧
    smooth1Aliased true false (1 / 2) 1 [1, 2]
      = smooth1Distinct true false (1 / 2) 1 [1, 2] [9, 9] :=
  ⟨rfl, by norm_num,
    c7_amended_alias_safety true false (1 / 2) 1 [1, 2] [9, 9] rfl
      (Or.inl (by norm_num))⟩

/-- C7 counterexample: with `sigma = 2` the filter decay is exactly
`a = 1/2` (`aFromSigmaRel 2 (1/2)` holds); on the single-sample input
`[1]` the input-anchored variant with non-zero-slope edges produces
`[1/3]` when input and output alias but `[1/2]` on distinct buffers, so
`apply` is not insensitive to aliasing for every sigma and input. -/
theorem c7_counterexample :
    aFromSigmaRel 2 (1 / 2) ∧
    (([0] : List ℚ).length = ([1] : List ℚ).length) ∧
    smooth1Aliased true false (1 / 2) 1 [1] = [1 / 3] ∧
    smooth1Distinct true false (1 / 2) 1 [1] [0] = [1 / 2] ∧
    smooth1Aliased true false (1 / 2) 1 [1]
      ≠ smooth1Distinct true false (1 / 2) 1 [1] [0] := by
  have hA : smooth1Aliased true false (1 / 2) 1 [1] = [1 / 3] := by
    norm_num [smooth1Aliased, smooth1EiAliased, eiStepA, List.range']
  have hD : smooth1Distinct true false (1 / 2) 1 [1] [0] = [1 / 2] := by
    norm_num [smooth1Distinct, smooth1EiDistinct, eiStepD, List.range']
  refine ⟨?_, rfl, hA, hD, ?_⟩
  · right
    refine ⟨by norm_num, by norm_num, by norm_num⟩
  · rw [hA, hD]
    intro hcon
    have := List.head_eq_of_cons_eq hcon
    norm_num at this

/-- C8: the `RecursiveExponentialFilter` constructor initialises only the
half-width `_sigma1` and the decay `_a1`; the `_zs` (zero-slope) and `_ei`
(input-vs-output-anchored) selection flags that `apply`/`smooth1` dispatch
on are never assigned by any operation of this core (modelled: the
constructed state carries `none` for both); for every `sigma > 0` the
derived decay satisfies `0 < a < 1` (so the `a == 0` identity shortcut is
not taken and the dispatch on the flags is reached), and both the branch
taken (`_ei`) and the edge scaling within it (`_zs`) change the output, so
the behaviour of `apply` is determined by uninitialised object state. -/
theorem c8_uninitialized_flags :
    (∀ sigma a : ℚ, (REFconstruct sigma a).ei = none ∧
      (REFconstruct sigma a).zs = none) ∧
    (∀ s a : ℝ, 0 < s → aFromSigmaRel s a → 0 < a ∧ a < 1) ∧
    (∀ a : ℚ, 0 < a → a < 1 → ∀ kRaw : ℤ, 0 ≤ kRaw →
      (∀ zs : Bool, smooth1Aliased true zs a kRaw [1]
        ≠ smooth1Aliased false zs a kRaw [1]) ∧
      smooth1Aliased true true a kRaw [1]
        ≠ smooth1Aliased true false a kRaw [1]) := by
  refine ⟨fun sigma a => ⟨rfl, rfl⟩, ?_, ?_⟩
  · intro s a hs hrel
    rcases hrel with ⟨hs0, _⟩ | ⟨_, hpos, heq⟩
    · exact absurd hs (not_lt_of_le hs0)
    · have ht : (0 : ℝ) < s ^ 2 := by positivity
      constructor
      · by_contra hc
        push_neg at hc
        have h0 : (0 : ℝ) ≤ 1 + s ^ 2 := by positivity
        have h1 : 1 + s ^ 2 ≤ 1 + s ^ 2 * (1 - a) := by
          nlinarith [mul_nonneg ht.le (neg_nonneg.mpr hc)]
        have h2 : (1 + s ^ 2) ^ 2 ≤ (1 + s ^ 2 * (1 - a)) ^ 2 :=
          pow_le_pow_left h0 h1 2
        nlinarith [mul_pos ht ht]
      · by_contra hc
        push_neg at hc
        have h1 : 1 + s ^ 2 * (1 - a) ≤ 1 := by
          nlinarith [mul_nonpos_of_nonneg_of_nonpos ht.le
            (by linarith : 1 - a ≤ 0)]
        have h2 : (1 + s ^ 2 * (1 - a)) ^ 2 ≤ 1 := by nlinarith
        nlinarith
  · intro a ha0 ha1 kRaw hk
    have hne0 : a ≠ 0 := ne_of_gt ha0
    have h1a : (1 : ℚ) + a ≠ 0 := by positivity
    have hEo : ∀ zs : Bool, smooth1Aliased false zs a kRaw [1] = [0] := by
      intro zs
      have hcopy : smooth1EoAliased zs a kRaw [1]
          = smooth1EoCore zs a kRaw [1 * ((1 - a) * (1 - a))] := rfl
      have hmin : min kRaw ((2 : ℤ) * ((1 : ℕ) : ℤ) - 2) = 0 := by omega
      simp only [smooth1Aliased, if_neg hne0, Bool.false_eq_true, if_false]
      rw [hcopy]
      simp only [smooth1EoCore, List.length_cons, List.length_nil]
      rw [hmin]
      norm_num
    have hEiT : smooth1Aliased true true a kRaw [1] = [1] := by
      simp only [smooth1Aliased, smooth1EiAliased, eiStepA, List.range',
        List.range_eq_range', if_neg hne0]
      norm_num
      field_simp
      ring
    have hEiF : smooth1Aliased true false a kRaw [1] = [(1 - a) * (1 - a) / (1 + a) + a * (1 - a) / (1 + a)] := by
      simp only [smooth1Aliased, smooth1EiAliased, eiStepA, List.range',
        List.range_eq_range', if_neg hne0]
      norm_num
      ring
    have hval : (1 - a) * (1 - a) / (1 + a) + a * (1 - a) / (1 + a) = (1 - a) / (1 + a) := by
      field_simp
      ring
    rw [hval] at hEiF
    refine ⟨?_, ?_⟩
    · intro zs
      rw [hEo zs]
      cases zs
      · rw [hEiF]
        intro hcon
        have hhead := List.head_eq_of_cons_eq hcon
        have : (1 - a) / (1 + a) ≠ 0 :=
          div_ne_zero (by intro h; apply absurd ha1 (by rw [sub_eq_zero] at h; rw [← h]; simp)) h1a
        exact this hhead
      · rw [hEiT]
        intro hcon
        have hhead := List.head_eq_of_cons_eq hcon
        norm_num at hhead
    · rw [hEiT, hEiF]
      intro hcon
      have hhead := List.head_eq_of_cons_eq hcon
      rw [eq_div_iff h1a] at hhead
      apply hne0
      linarith

/-- Witness for C8: `sigma = 2` gives exactly `a = 1/2`
(`aFromSigmaRel 2 (1/2)` holds over `ℝ`), with `0 < a < 1`; the
constructed state carries no flag values and the dispatch outcome differs
between flag choices. -/
theorem c8_witness :
    (REFconstruct 2 (1 / 2)).ei = none ∧
    (0 : ℝ) < 2 ∧ aFromSigmaRel 2 (1 / 2) ∧
    ((0 : ℝ) < 1 / 2 ∧ (1 / 2 : ℝ) < 1) ∧
    smooth1Aliased true true (1 / 2) 1 [1]
      ≠ smooth1Aliased true false (1 / 2) 1 [1] := by
  have hrel : aFromSigmaRel 2 (1 / 2) := by
    right
    refine ⟨by norm_num, by norm_num, by norm_num⟩
  exact ⟨(c8_uninitialized_flags.1 2 (1 / 2)).1, by norm_num, hrel,
    c8_uninitialized_flags.2.1 2 (1 / 2) (by norm_num) hrel,
    (c8_uninitialized_flags.2.2 (1 / 2) (by norm_num) (by norm_num) 1
      (by norm_num)).2⟩

/-- C6 is false as stated: `setStrainMax` performs no validation and
computes `b = ceil(1/strainMax)` unconditionally; at `strainMax = -1` the
call completes and stores `b = -1` (nothing is rejected before the
computation of `b`). -/
theorem c6_counterexample :
    (setStrainMax (DWconstruct 0 2) (-1)).bstrain1 = -1 ∧
    (setStrainMax (DWconstruct 0 2) (-1)).bstrain1 ≤ 0 := by
  have h : (1 : ℚ) / (-1) = ((-1 : ℤ) : ℚ) := by norm_num
  constructor
  · show (⌈(1 : ℚ) / (-1)⌉ : ℤ) = -1
    rw [h, Int.ceil_intCast]
  · show (⌈(1 : ℚ) / (-1)⌉ : ℤ) ≤ 0
    rw [h, Int.ceil_intCast]
    norm_num

/-- C6 (amended): `setStrainMax` validates nothing; for every engine state
and every nonzero argument it unconditionally stores
`b = ceil(1/strainMax)` — which is nonpositive whenever `strainMax < 0`
(and `strainMax = 0` divides by zero in the source).  The `(0,1]`
requirement is only a documented precondition on the caller. -/
theorem c6_amended_no_validation (s : DWState) (strainMax : ℚ)
    (hnz : strainMax ≠ 0) :
    (setStrainMax s strainMax).bstrain1 = ⌈1 / strainMax⌉ ∧
    (strainMax < 0 → (setStrainMax s strainMax).bstrain1 ≤ 0) := by
  constructor
  · rfl
  · intro hneg
    show (⌈1 / strainMax⌉ : ℤ) ≤ 0
    have h1 : 1 / strainMax < 0 := div_neg_of_pos_of_neg one_pos hneg
    have h2 : (⌈1 / strainMax⌉ : ℤ) ≤ ⌈(0 : ℚ)⌉ := Int.ceil_le_ceil (le_of_lt h1)
    simpa using h2

/-- Witness for the amended C6. -/
theorem c6_witness :
    ((-1 : ℚ) ≠ 0) ∧ ((-1 : ℚ) < 0) ∧
    (setStrainMax (DWconstruct 0 2) (-1)).bstrain1 = ⌈(1 : ℚ) / (-1)⌉ ∧
    (setStrainMax (DWconstruct 0 2) (-1)).bstrain1 ≤ 0 :=
  ⟨by norm_num, by norm_num,
    (c6_amended_no_validation (DWconstruct 0 2) (-1) (by norm_num)).1,
    (c6_amended_no_validation (DWconstruct 0 2) (-1) (by norm_num)).2
      (by norm_num)⟩

/-- C9 is false of the code (code bug): the `DynamicWarping` constructor
assigns `_lmin`, `_lmax`, `_nl`, `_extrap`, `_epow`, `_usmooth1`,
`_bstrain1` and `_ref1` but never `_esmooth`, although the documentation
states the default number of smoothings is zero; on a freshly constructed
engine `findShifts` reads the uninitialised member as its loop bound
(modelled: the field is `none` and the state-level `findShifts` is
undefined). -/
theorem c9_esmooth_uninitialized (shiftMin shiftMax : ℤ) (f g : List ℚ) :
    (DWconstruct shiftMin shiftMax).esmooth = none ∧
    findShiftsOfState (DWconstruct shiftMin shiftMax) f g = none ∧
    (setErrorSmoothing (DWconstruct shiftMin shiftMax) 0).esmooth = some 0 :=
  ⟨rfl, rfl, rfl⟩

/-- C10 is false of the code (code bug): `updateSmoothingFilter` runs
`if (_ref1) delete _ref1;` without nulling the member, and reassigns it
only when `_usmooth1 > 0`; after `setShiftSmoothing(1)` followed by
`setShiftSmoothing(0)` the engine holds a dangling non-null `_ref1` with
`_usmooth1 = 0`, the claimed invariant (`_ref1` valid iff the factor is
positive) is violated, and `smoothShifts` takes the filtering branch
through the freed pointer instead of being the identity. -/
theorem c10_dangling_smoother :
    (setShiftSmoothing (setShiftSmoothing (DWconstruct 0 2) 1) 0).ref1
        = RefPtr.dangling ∧
    (setShiftSmoothing (setShiftSmoothing (DWconstruct 0 2) 1) 0).usmooth1 = 0 ∧
    smoothShiftsAppliesFilter
      (setShiftSmoothing (setShiftSmoothing (DWconstruct 0 2) 1) 0) ∧
    ¬((setShiftSmoothing (setShiftSmoothing (DWconstruct 0 2) 1) 0).ref1
          = RefPtr.null ∨
      ∃ sg, (setShiftSmoothing (setShiftSmoothing (DWconstruct 0 2) 1) 0).ref1
          = RefPtr.valid sg) := by
  have h2 : (setShiftSmoothing (setShiftSmoothing (DWconstruct 0 2) 1) 0).ref1
      = RefPtr.dangling := by decide
  refine ⟨h2, rfl, ?_, ?_⟩
  · show (setShiftSmoothing (setShiftSmoothing (DWconstruct 0 2) 1) 0).ref1
        ≠ RefPtr.null
    rw [h2]
    intro hcon
    exact RefPtr.noConfusion hcon
  · intro hcon
    rcases hcon with hcon | ⟨sg, hcon⟩
    · rw [h2] at hcon
      exact RefPtr.noConfusion hcon
    · rw [h2] at hcon
      exact RefPtr.noConfusion hcon
